import Mathlib

/-!
Verification model of the jsonlinter application (`src/src/App.jsx`).

The application is a React shell around a small JSON engine: parsing is
delegated to the external `jsonlint` / `JSON.parse` libraries, serialization
to `JSON.stringify`, and the editor document to CodeMirror.  Those external
pieces are not part of the repository source, so they are modelled below from
the specification (parser grammar, serializer formats) and, where the
specification is silent, from the documented behaviour of the host functions
(`String.prototype.localeCompare`, CodeMirror's `lineCount`).  Everything
else (`sortKeysDeep`, `extractLineCol`, `validate`, `formatJson`,
`minifyJson`, `sortKeys`, `updateKpis`, the debounced change handler) is
translated directly from `App.jsx`.

Numbers are modelled as exact decimal values `m / 10^e` with an integer
mantissa: the source stores IEEE-754 doubles, whose rounding behaviour is
outside this embedding (the spec itself lists double precision as a known
limitation); on the decimals representable in the model, parsing and
printing are exact, which is what the round-trip properties exercise.
-/

namespace JLint

/-! ## Character utilities -/

/-- JSON insignificant whitespace per the spec: space, tab, CR, LF. -/
def isWsChar (c : Char) : Bool :=
  c = ' ' || c = '\t' || c = '\r' || c = '\n'

/-- Drop leading JSON whitespace. -/
def skipWs : List Char → List Char
  | [] => []
  | c :: cs => if isWsChar c then skipWs cs else c :: cs

/-- Model of JavaScript's `String.prototype.trim`: strip leading and
trailing whitespace (restricted to the space, tab, CR, LF set the
documents here contain). -/
def jsTrim (s : String) : String :=
  String.mk (List.reverse (skipWs (List.reverse (skipWs s.data))))

/-- Decimal digit test. -/
def isDigitChar (c : Char) : Bool :=
  decide (48 ≤ c.toNat) && decide (c.toNat ≤ 57)

/-- Value of a hexadecimal digit, if the character is one. -/
def hexVal (c : Char) : Option Nat :=
  if 48 ≤ c.toNat ∧ c.toNat ≤ 57 then some (c.toNat - 48)
  else if 97 ≤ c.toNat ∧ c.toNat ≤ 102 then some (c.toNat - 87)
  else if 65 ≤ c.toNat ∧ c.toNat ≤ 70 then some (c.toNat - 55)
  else none

/-- Is there no way the head of `cs` could extend a number token?  Holds at
the token boundaries the serializer produces (separators, closers, end of
input). -/
def nBnd : List Char → Bool
  | [] => true
  | c :: _ =>
    !(isDigitChar c || c = '.' || c = 'e' || c = 'E' || c = '+' || c = '-')

/-- Lowercase hexadecimal digit for a value below 16 (as `JSON.stringify`
emits in `\u00XX` escapes). -/
def hexDigitChar (n : Nat) : Char :=
  if n < 10 then Char.ofNat (48 + n) else Char.ofNat (87 + n)

/-- Big-endian decimal digits of `n`, driven by explicit fuel so that the
definition is structural (and hence kernel-evaluable). -/
def natDigitsFuel : Nat → Nat → List Char
  | 0, _ => []
  | _ + 1, 0 => []
  | f + 1, n + 1 => natDigitsFuel f ((n + 1) / 10) ++ [Char.ofNat ((n + 1) % 10 + 48)]

/-- Big-endian decimal digit characters of a natural number. -/
def natToDigitChars (n : Nat) : List Char :=
  if n = 0 then ['0'] else natDigitsFuel n n

/-- Fold decimal digit characters back into a natural number. -/
def foldDigits (acc : Nat) (ds : List Char) : Nat :=
  ds.foldl (fun a c => a * 10 + (c.toNat - 48)) acc

/-- Split the longest leading run of decimal digits off a character list. -/
def takeDigits : List Char → List Char × List Char
  | [] => ([], [])
  | c :: cs =>
    if isDigitChar c then
      let p := takeDigits cs
      (c :: p.1, p.2)
    else ([], c :: cs)

/-! ## The JSON value type (spec section 3) -/

/-- Modelled from the spec: the `JsonValue` tagged union (section 3).  A
number is the exact decimal `m / 10 ^ e`; objects are ordered key/value
lists. -/
inductive Json where
  | null : Json
  | bool (b : Bool) : Json
  | num (m : Int) (e : Nat) : Json
  | str (s : String) : Json
  | arr (elems : List Json) : Json
  | obj (members : List (String × Json)) : Json

/-- First value bound to key `k`, scanning left to right. -/
def lookupKey (k : String) : List (String × Json) → Option Json
  | [] => none
  | p :: ps => if p.1 = k then some p.2 else lookupKey k ps

/-- Remove every binding of key `k`. -/
def eraseKey (k : String) : List (String × Json) → List (String × Json)
  | [] => []
  | p :: ps => if p.1 = k then eraseKey k ps else p :: eraseKey k ps

/-- Modelled from the spec: duplicate-key policy of the parser (section 3):
the first occurrence keeps its position, the last occurrence's value wins.
`ms` is the already-deduplicated tail; the new front member `(k, v)` is
overridden by a later binding of `k` if one exists. -/
def consMember (k : String) (v : Json) (ms : List (String × Json)) :
    List (String × Json) :=
  match lookupKey k ms with
  | some v' => (k, v') :: eraseKey k ms
  | none => (k, v) :: ms

/-- All keys distinct (no later binding shadows an earlier one). -/
def keysDistinct : List (String × Json) → Bool
  | [] => true
  | p :: ps => (lookupKey p.1 ps).isNone && keysDistinct ps

mutual
/-- Well-formed values: numbers are normalized decimals (no trailing
fractional zeros) and object keys are unique — the invariants the spec's
data model states for parsed values. -/
def JsonWf : Json → Bool
  | .num m e => e == 0 || !(m % 10 == 0)
  | .arr l => JsonWfList l
  | .obj m => keysDistinct m && JsonWfMembers m
  | _ => true
termination_by structural j => j

def JsonWfList : List Json → Bool
  | [] => true
  | v :: vs => JsonWf v && JsonWfList vs
termination_by structural l => l

def JsonWfMembers : List (String × Json) → Bool
  | [] => true
  | (_, v) :: ps => JsonWf v && JsonWfMembers ps
termination_by structural l => l
end

mutual
/-- Node-count measure used to budget parser fuel. -/
def jsize : Json → Nat
  | .arr l => 1 + jsizeList l
  | .obj m => 1 + jsizeMembers m
  | _ => 1
termination_by structural j => j

def jsizeList : List Json → Nat
  | [] => 0
  | v :: vs => 1 + jsize v + jsizeList vs
termination_by structural l => l

def jsizeMembers : List (String × Json) → Nat
  | [] => 0
  | (_, v) :: ps => 1 + jsize v + jsizeMembers ps
termination_by structural l => l
end

/-! ## Serializer (spec section 4.3, modelling `JSON.stringify`) -/

/-- Modelled from the spec: string escaping of the serializer — the short
escapes `\" \\ \b \f \n \r \t`, `\u00XX` for the remaining control
characters, and every other character verbatim. -/
def quoteChar (c : Char) : List Char :=
  if c = '"' then ['\\', '"']
  else if c = '\\' then ['\\', '\\']
  else if c = '\x08' then ['\\', 'b']
  else if c = '\x0c' then ['\\', 'f']
  else if c = '\n' then ['\\', 'n']
  else if c = '\r' then ['\\', 'r']
  else if c = '\t' then ['\\', 't']
  else if c.toNat < 0x20 then
    ['\\', 'u', '0', '0', hexDigitChar (c.toNat / 16), hexDigitChar (c.toNat % 16)]
  else [c]

/-- Escape a string body character by character. -/
def quoteBody : List Char → List Char
  | [] => []
  | c :: cs => quoteChar c ++ quoteBody cs

/-- Quoted, escaped JSON string literal. -/
def quoteStr (s : String) : List Char :=
  '"' :: quoteBody s.data ++ ['"']

/-- Modelled from the spec: decimal rendering of the exact number
`m / 10 ^ e` — a plain integer when `e = 0`, otherwise a decimal point
placed `e` digits from the right (with leading zeros as needed).  The host
would switch to exponent notation for extreme magnitudes; the model always
prints plain decimals, which parse back to the same value. -/
def numBody (n : Nat) (e : Nat) : List Char :=
  let s := natToDigitChars n
  if e = 0 then s
  else if e < s.length then s.take (s.length - e) ++ '.' :: s.drop (s.length - e)
  else '0' :: '.' :: List.replicate (e - s.length) '0' ++ s

/-- Sign prefix plus the digit body. -/
def renderNum (m : Int) (e : Nat) : List Char :=
  (if m < 0 then ['-'] else []) ++ numBody m.natAbs e

/-- Newline-plus-indentation separator of the pretty printer: empty when
minifying (`ind = 0`), otherwise a newline and `ind * d` spaces. -/
def nlPad (ind d : Nat) : List Char :=
  if ind = 0 then [] else '\n' :: List.replicate (ind * d) ' '

/-- Member separator after a key: `:` when minifying, `: ` when pretty. -/
def colonPad (ind : Nat) : List Char :=
  if ind = 0 then [':'] else [':', ' ']

mutual
/-- Modelled from the spec: the serializer family (section 4.3), following
`JSON.stringify(value, null, ind)` — `ind = 0` is the minified form, a
positive `ind` indents nested containers by `ind` spaces per depth level,
with no trailing whitespace on any line. -/
def render (ind d : Nat) : Json → List Char
  | .null => 'n' :: 'u' :: ['l', 'l']
  | .bool true => 't' :: 'r' :: ['u', 'e']
  | .bool false => 'f' :: 'a' :: ['l', 's', 'e']
  | .num m e => renderNum m e
  | .str s => quoteStr s
  | .arr [] => ['[', ']']
  | .arr (v :: vs) =>
    '[' :: nlPad ind (d + 1) ++ render ind (d + 1) v ++
      renderItemsRest ind (d + 1) vs ++ nlPad ind d ++ [']']
  | .obj [] => ['\x7b', '\x7d']
  | .obj ((k, v) :: ps) =>
    '\x7b' :: nlPad ind (d + 1) ++ quoteStr k ++ colonPad ind ++ render ind (d + 1) v ++
      renderMembersRest ind (d + 1) ps ++ nlPad ind d ++ ['\x7d']
termination_by structural j => j

def renderItemsRest (ind d : Nat) : List Json → List Char
  | [] => []
  | v :: vs => ',' :: nlPad ind d ++ render ind d v ++ renderItemsRest ind d vs
termination_by structural l => l

def renderMembersRest (ind d : Nat) : List (String × Json) → List Char
  | [] => []
  | (k, v) :: ps =>
    ',' :: nlPad ind d ++ quoteStr k ++ colonPad ind ++ render ind d v ++
      renderMembersRest ind d ps
termination_by structural l => l
end

/-- Rendered contents of a non-empty array: first element then the
comma-separated rest (a reading view of `render`'s array case). -/
def itemsRender (ind d : Nat) : List Json → List Char
  | [] => []
  | v :: vs => render ind d v ++ renderItemsRest ind d vs

/-- Rendered contents of a non-empty object: first member then the
comma-separated rest (a reading view of `render`'s object case). -/
def membersRender (ind d : Nat) : List (String × Json) → List Char
  | [] => []
  | (k, v) :: ps =>
    quoteStr k ++ colonPad ind ++ render ind d v ++ renderMembersRest ind d ps

/-- `prettyPrint(value, indentWidth)` of the spec: `JSON.stringify(v, null, ind)`. -/
def prettyPrint (ind : Nat) (v : Json) : String :=
  String.mk (render ind 0 v)

/-- `minify(value)` of the spec: `JSON.stringify(v)`. -/
def minify (v : Json) : String :=
  String.mk (render 0 0 v)

/-! ## Parser (spec section 4.1, modelling `jsonlint.parse` / `JSON.parse`) -/

/-- In-flight parse failure: the unconsumed suffix at the offending
character, and the construct that was expected there. -/
structure PErr where
  rest : List Char
  expected : String

/-- Normalize an exact decimal by stripping factors of ten out of the
fractional part. -/
def normNum : Int → Nat → Int × Nat
  | m, 0 => (m, 0)
  | m, e + 1 => if m % 10 = 0 then normNum (m / 10) e else (m, e + 1)

/-- Combine sign, integer digits, fraction digits and decimal exponent into
a normalized exact decimal value. -/
def mkNumVal (neg : Bool) (ip fp : List Char) (k : Int) : Int × Nat :=
  let m0 : Nat := foldDigits 0 (ip ++ fp)
  let net : Int := (fp.length : Int) - k
  let p := if net ≤ 0 then ((m0 : Int) * 10 ^ (-net).toNat, 0) else normNum (m0 : Int) net.toNat
  (if neg then -p.1 else p.1, p.2)

/-- Read the mandatory digit run of an exponent and finish the number. -/
def expDigits (neg : Bool) (ip fp : List Char) (esign : Bool) (cs : List Char) :
    Except PErr ((Int × Nat) × List Char) :=
  match takeDigits cs with
  | ([], _) => .error ⟨cs, "exponent digits"⟩
  | (d :: ds, r2) =>
    let k : Int := (foldDigits 0 (d :: ds) : Nat)
    .ok (mkNumVal neg ip fp (if esign then -k else k), r2)

/-- Parse the optional exponent part and finish a number token. -/
def parseExpPart (neg : Bool) (ip fp : List Char) (cs : List Char) :
    Except PErr ((Int × Nat) × List Char) :=
  match cs with
  | [] => .ok (mkNumVal neg ip fp 0, [])
  | c :: r =>
    if c = 'e' ∨ c = 'E' then
      match r with
      | [] => .error ⟨[], "exponent digits"⟩
      | c2 :: r2 =>
        if c2 = '+' then expDigits neg ip fp false r2
        else if c2 = '-' then expDigits neg ip fp true r2
        else expDigits neg ip fp false (c2 :: r2)
    else .ok (mkNumVal neg ip fp 0, c :: r)

/-- Parse the digit runs of a number after the sign: integer part with the
no-leading-zeros rule, optional fraction, optional exponent. -/
def parseNumBody (neg : Bool) (cs : List Char) :
    Except PErr ((Int × Nat) × List Char) :=
  match takeDigits cs with
  | ([], _) => .error ⟨cs, "number"⟩
  | (d :: ds, r1) =>
    if d = '0' ∧ ds ≠ [] then .error ⟨cs, "number"⟩
    else
      match r1 with
      | [] => parseExpPart neg (d :: ds) [] []
      | c :: r1a =>
        if c = '.' then
          match takeDigits r1a with
          | ([], _) => .error ⟨r1a, "fraction digits"⟩
          | (f :: fs, r2) => parseExpPart neg (d :: ds) (f :: fs) r2
        else parseExpPart neg (d :: ds) [] (c :: r1a)

/-- Modelled from the spec: the number grammar (section 4.1) — optional
leading `-`, no leading zeros except a bare `0`, optional fraction,
optional exponent. -/
def parseNum (cs : List Char) : Except PErr ((Int × Nat) × List Char) :=
  match cs with
  | [] => .error ⟨[], "number"⟩
  | c :: r => if c = '-' then parseNumBody true r else parseNumBody false (c :: r)

/-- Translation table for the single-character escapes accepted after a
backslash; `none` marks an invalid escape character. -/
def escChar (c : Char) : Option Char :=
  if c = '"' then some '"'
  else if c = '\\' then some '\\'
  else if c = '/' then some '/'
  else if c = 'b' then some '\x08'
  else if c = 'f' then some '\x0c'
  else if c = 'n' then some '\n'
  else if c = 'r' then some '\r'
  else if c = 't' then some '\t'
  else none

/-- Modelled from the spec: string-body scanning (section 4.1) — the short
escapes `\" \\ \/ \b \f \n \r \t`, `\uXXXX` decoded unit-wise (UTF-16
surrogate pairing is outside this scalar-value embedding), rejection of
raw control characters, and everything else verbatim, up to the closing
quote. -/
def parseStrBody : List Char → Except PErr (List Char × List Char)
  | [] => .error ⟨[], "closing quote"⟩
  | c :: r =>
    if c = '"' then .ok ([], r)
    else if c = '\\' then
      match r with
      | [] => .error ⟨[], "escape"⟩
      | e :: r1 =>
        if e = 'u' then
          match r1 with
          | a :: b :: g :: d :: r2 =>
            match hexVal a, hexVal b, hexVal g, hexVal d with
            | some ha, some hb, some hg, some hd =>
              (parseStrBody r2).map fun p =>
                (Char.ofNat (((ha * 16 + hb) * 16 + hg) * 16 + hd) :: p.1, p.2)
            | _, _, _, _ => .error ⟨r1, "hex digits"⟩
          | _ => .error ⟨r1, "hex digits"⟩
        else
          match escChar e with
          | some ch => (parseStrBody r1).map fun p => (ch :: p.1, p.2)
          | none => .error ⟨e :: r1, "escape"⟩
    else if c.toNat < 0x20 then .error ⟨c :: r, "string character"⟩
    else (parseStrBody r).map fun p => (c :: p.1, p.2)
termination_by structural cs => cs

mutual
/-- Modelled from the spec: the strict recursive-descent value grammar
(section 4.1) — objects, arrays, strings, `true`/`false`/`null`, numbers,
whitespace between tokens, and nothing else (no trailing commas, comments,
unquoted keys, single quotes, or bare `NaN`/`Infinity`).  Fuel only bounds
nesting recursion; it is always sufficient at the top-level entry point. -/
def parseValue : Nat → List Char → Except PErr (Json × List Char)
  | 0, cs => .error ⟨cs, "value"⟩
  | fuel + 1, cs =>
    match skipWs cs with
    | [] => .error ⟨[], "value"⟩
    | c :: r =>
      if c = '\x7b' then
        match skipWs r with
        | '\x7d' :: r2 => .ok (.obj [], r2)
        | r2 => (parseMembers fuel r2).map fun p => (.obj p.1, p.2)
      else if c = '[' then
        match skipWs r with
        | ']' :: r2 => .ok (.arr [], r2)
        | r2 => (parseItems fuel r2).map fun p => (.arr p.1, p.2)
      else if c = '"' then
        (parseStrBody r).map fun p => (.str (String.mk p.1), p.2)
      else if c = 't' then
        match r with
        | 'r' :: 'u' :: 'e' :: r2 => .ok (.bool true, r2)
        | _ => .error ⟨c :: r, "value"⟩
      else if c = 'f' then
        match r with
        | 'a' :: 'l' :: 's' :: 'e' :: r2 => .ok (.bool false, r2)
        | _ => .error ⟨c :: r, "value"⟩
      else if c = 'n' then
        match r with
        | 'u' :: 'l' :: 'l' :: r2 => .ok (.null, r2)
        | _ => .error ⟨c :: r, "value"⟩
      else if c = '-' ∨ isDigitChar c then
        (parseNum (c :: r)).map fun p => (.num p.1.1 p.1.2, p.2)
      else .error ⟨c :: r, "value"⟩
termination_by structural fuel => fuel

def parseItems : Nat → List Char → Except PErr (List Json × List Char)
  | 0, cs => .error ⟨cs, "value"⟩
  | fuel + 1, cs =>
    match parseValue fuel cs with
    | .error e => .error e
    | .ok (v, r) =>
      match skipWs r with
      | ',' :: r2 => (parseItems fuel r2).map fun p => (v :: p.1, p.2)
      | ']' :: r2 => .ok ([v], r2)
      | r2 => .error ⟨r2, "comma or closing bracket"⟩
termination_by structural fuel => fuel

def parseMembers : Nat → List Char → Except PErr (List (String × Json) × List Char)
  | 0, cs => .error ⟨cs, "string"⟩
  | fuel + 1, cs =>
    match skipWs cs with
    | '"' :: r =>
      match parseStrBody r with
      | .error e => .error e
      | .ok (k, r2) =>
        match skipWs r2 with
        | ':' :: r3 =>
          match parseValue fuel r3 with
          | .error e => .error e
          | .ok (v, r4) =>
            match skipWs r4 with
            | ',' :: r5 =>
              (parseMembers fuel r5).map fun p =>
                (consMember (String.mk k) v p.1, p.2)
            | '\x7d' :: r5 => .ok ([(String.mk k, v)], r5)
            | r5 => .error ⟨r5, "comma or closing brace"⟩
        | r3 => .error ⟨r3, "colon"⟩
    | r => .error ⟨r, "string"⟩
termination_by structural fuel => fuel
end

/-- Structured parse error of the spec's error model: a message plus an
optional zero-based source position. -/
structure ParseError where
  message : String
  line : Option Nat
  col : Option Nat
deriving DecidableEq

/-- Zero-based (line, column) of the character at offset `n`, counting
newlines exactly as they occur in the input. -/
def posAt (cs : List Char) (n : Nat) : Nat × Nat :=
  (cs.take n).foldl (fun p c => if c = '\n' then (p.1 + 1, 0) else (p.1, p.2 + 1)) (0, 0)

/-- Modelled from the spec: the structured error produced on a parse
failure.  The message follows jsonlint's shape — it names the one-based
line (`Parse error on line N:`) and the expected construct, but never a
column; the structured fields carry the zero-based position. -/
def mkParseError (cs rest : List Char) (expected : String) : ParseError :=
  let consumed := cs.length - rest.length
  let p := posAt cs consumed
  ⟨"Parse error on line " ++ toString (p.1 + 1) ++ ":\nExpecting " ++ expected,
    some p.1, some p.2⟩

/-- Modelled from the spec: `parse(text) -> JsonValue | ParseError`
(section 4.1) — the strict parser used by both `jsonlint.parse` and
`JSON.parse` call sites, requiring a single value with only trailing
whitespace after it. -/
def parse (text : String) : Except ParseError Json :=
  let cs := text.data
  match parseValue (cs.length + 1) cs with
  | .error e => .error (mkParseError cs e.rest e.expected)
  | .ok (v, rest) =>
    match skipWs rest with
    | [] => .ok v
    | r => .error (mkParseError cs r "end of input")

/-- Successful payload of an `Except`, if any. -/
def okOf : Except ParseError Json → Option Json
  | .ok v => some v
  | .error _ => none

/-! ## Key sorting (`sortKeysDeep` in App.jsx) -/

/-- ASCII lowercasing, as the primary collation strength folds case. -/
def lowerChar (c : Char) : Char :=
  if 65 ≤ c.toNat ∧ c.toNat ≤ 90 then Char.ofNat (c.toNat + 32) else c

/-- Collation key of a string under the default-locale `localeCompare`
model: case-folded code points first (shifted so the `0` separator sorts
below every character), then a case-rank pass that puts lowercase before
uppercase, as ICU's root collation does at the tertiary level. -/
def localeKey (s : String) : List Nat :=
  s.data.map (fun c => (lowerChar c).toNat + 1) ++
    0 :: s.data.map (fun c => if 65 ≤ c.toNat ∧ c.toNat ≤ 90 then 1 else 0)

/-- Lexicographic comparison of digit-key lists. -/
def lexLe : List Nat → List Nat → Bool
  | [], _ => true
  | _ :: _, [] => false
  | a :: as, b :: bs => if a < b then true else if b < a then false else lexLe as bs

/-- Model of JavaScript's `a.localeCompare(b) <= 0` under the default
locale (ICU root collation), restricted to ASCII: compare case-folded,
breaking ties with lowercase before uppercase.  This is the comparator
`sortKeysDeep` passes to `Array.prototype.sort`; note it is NOT code-point
order (for example `"a"` sorts before `"B"`). -/
def localeLe (a b : String) : Bool :=
  lexLe (localeKey a) (localeKey b)

/-- Key comparator used on object member lists. -/
def keyLe (p q : String × Json) : Bool :=
  localeLe p.1 q.1

/-- Insert into a sorted list, keeping earlier-listed elements first on
ties — the stability guarantee of `Array.prototype.sort`. -/
def insertBy {α : Type} (le : α → α → Bool) (x : α) : List α → List α
  | [] => [x]
  | y :: ys => if le x y then x :: y :: ys else y :: insertBy le x ys

/-- Stable insertion sort by a boolean comparator. -/
def sortBy {α : Type} (le : α → α → Bool) : List α → List α
  | [] => []
  | x :: xs => insertBy le x (sortBy le xs)

mutual
/-- Translated from `sortKeysDeep` in App.jsx: arrays are mapped
recursively in place, objects get their members sorted by
`localeCompare` on the key with values recursed, scalars pass through.
(The source sorts the keys and then recurses into each value; sorting by
key and recursing into values commute, so the composition is the same.) -/
def sortKeysDeep : Json → Json
  | .arr l => .arr (sortKeysList l)
  | .obj m => .obj (sortBy keyLe (sortMembersVals m))
  | v => v
termination_by structural j => j

def sortKeysList : List Json → List Json
  | [] => []
  | v :: vs => sortKeysDeep v :: sortKeysList vs
termination_by structural l => l

def sortMembersVals : List (String × Json) → List (String × Json)
  | [] => []
  | (k, v) :: ps => (k, sortKeysDeep v) :: sortMembersVals ps
termination_by structural l => l
end

/-- Adjacent-pairs check for a boolean comparator. -/
def chainLe {α : Type} (le : α → α → Bool) : List α → Bool
  | [] => true
  | [_] => true
  | x :: y :: xs => le x y && chainLe le (y :: xs)

mutual
/-- Every object member list, at every nesting level, is sorted by the
`localeCompare` key order. -/
def keysSortedDeep : Json → Bool
  | .arr l => keysSortedList l
  | .obj m => chainLe keyLe m && keysSortedMembers m
  | _ => true
termination_by structural j => j

def keysSortedList : List Json → Bool
  | [] => true
  | v :: vs => keysSortedDeep v && keysSortedList vs
termination_by structural l => l

def keysSortedMembers : List (String × Json) → Bool
  | [] => true
  | (_, v) :: ps => keysSortedDeep v && keysSortedMembers ps
termination_by structural l => l
end

/-- Code-point comparison on strings (the order the spec claims
`canonicalize` uses): lexicographic on the raw character values. -/
def cpLe (a b : String) : Bool :=
  lexLe (a.data.map Char.toNat) (b.data.map Char.toNat)

/-- Keys of a top-level object, in order. -/
def objKeys : Json → List String
  | .obj m => m.map Prod.fst
  | _ => []

/-- Member comparator by code-point key order. -/
def cpKeyLe (p q : String × Json) : Bool :=
  cpLe p.1 q.1

mutual
/-- Canonicalize as the spec's words describe it — a second definition for
comparison with `sortKeysDeep`: every object's keys sorted by ascending
CODE-POINT order at every nesting level, arrays recursed element-wise,
scalars unchanged. -/
def canonicalizeSpec : Json → Json
  | .arr l => .arr (canonicalizeSpecList l)
  | .obj m => .obj (sortBy cpKeyLe (canonicalizeSpecMembers m))
  | v => v
termination_by structural j => j

def canonicalizeSpecList : List Json → List Json
  | [] => []
  | v :: vs => canonicalizeSpec v :: canonicalizeSpecList vs
termination_by structural l => l

def canonicalizeSpecMembers : List (String × Json) → List (String × Json)
  | [] => []
  | (k, v) :: ps => (k, canonicalizeSpec v) :: canonicalizeSpecMembers ps
termination_by structural l => l
end

/-! ## Metrics and the application shell (App.jsx) -/

/-- Status banner colour classes used by the shell. -/
inductive StatusType where
  | success : StatusType
  | danger : StatusType
deriving DecidableEq

/-- The `Keys` KPI: a count, or the `'—'` Unknown sentinel. -/
inductive KpiKeys where
  | count (n : Nat) : KpiKeys
  | unknown : KpiKeys
deriving DecidableEq

/-- Observable state of the application: the editor document plus the
status banner, cursor, and KPI read-outs. -/
structure AppState where
  doc : String
  status : String
  statusType : Option StatusType
  cursor : Option (Int × Int)
  kpiSize : Nat
  kpiLines : Nat
  kpiKeys : KpiKeys

/-- Model of CodeMirror's `lineCount`: the number of segments obtained by
splitting on the line separators `\r\n`, `\r`, `\n`, counting the
(possibly empty) text after the final separator as the last line — so a
trailing newline opens one further, empty line. -/
def lineSegs : List Char → Nat
  | [] => 1
  | [c] => if c = '\r' ∨ c = '\n' then 2 else 1
  | c :: c2 :: cs =>
    if c = '\r' then
      if c2 = '\n' then lineSegs cs + 1 else lineSegs (c2 :: cs) + 1
    else if c = '\n' then lineSegs (c2 :: cs) + 1
    else lineSegs (c2 :: cs)

/-- Reference splitter for the same separators, returning the actual line
segments; used to state what `lineSegs` counts. -/
def splitSegs : List Char → List (List Char)
  | [] => [[]]
  | [c] => if c = '\r' ∨ c = '\n' then [[], []] else [[c]]
  | c :: c2 :: cs =>
    if c = '\r' then
      if c2 = '\n' then [] :: splitSegs cs else [] :: splitSegs (c2 :: cs)
    else if c = '\n' then [] :: splitSegs (c2 :: cs)
    else
      match splitSegs (c2 :: cs) with
      | s :: ss => (c :: s) :: ss
      | [] => [[c]]

/-- Top-level cardinality as `updateKpis` computes it: array length, object
key count, and `0` for every scalar (including `null`). -/
def topCount : Json → Nat
  | .arr l => l.length
  | .obj m => m.length
  | _ => 0

/-- Translated from `updateKpis` in App.jsx: byte size of the document
(`Blob` size, i.e. UTF-8 length), CodeMirror's line count, and the Keys
KPI — a count when `JSON.parse` succeeds (length for arrays, key count
for objects, `0` for scalars and `null`), the `'—'` sentinel when it
throws. -/
def updateKpis (s : AppState) : AppState :=
  { s with
    kpiSize := s.doc.utf8ByteSize
    kpiLines := lineSegs s.doc.data
    kpiKeys :=
      match parse s.doc with
      | .ok v => .count (topCount v)
      | .error _ => .unknown }

/-- Take the longest leading run of (JSON-style) whitespace. -/
def takeWsChars : List Char → List Char × List Char
  | [] => ([], [])
  | c :: cs =>
    if isWsChar c then
      let p := takeWsChars cs
      (c :: p.1, p.2)
    else ([], c :: cs)

/-- Case-insensitive literal-pattern test at the head of `cs` (`kw` must be
given lowercase). -/
def startsCI : List Char → List Char → Bool
  | [], _ => true
  | _ :: _, [] => false
  | p :: ps, c :: cs => lowerChar c = p && startsCI ps cs

/-- One attempt of the regex `kw\s+(\d+)` anchored at the current position:
the literal keyword, at least one whitespace, then digits. -/
def tryKwNum (kw cs : List Char) : Option Nat :=
  if startsCI kw cs then
    match takeWsChars (cs.drop kw.length) with
    | ([], _) => none
    | (_ :: _, r1) =>
      match takeDigits r1 with
      | ([], _) => none
      | (d :: ds, _) => some (foldDigits 0 (d :: ds))
  else none

/-- Left-to-right scan for the first match of `kw\s+(\d+)`, case
insensitive — the behaviour of `String.prototype.match` with the regexes
in `extractLineCol`. -/
def scanKwNum (kw : List Char) : List Char → Option Nat
  | [] => none
  | c :: cs =>
    match tryKwNum kw (c :: cs) with
    | some n => some n
    | none => scanKwNum kw cs

/-- Translated from `extractLineCol` in App.jsx: recover a zero-based
(line, column) by regex-matching the free-text error message for
`line N` and `column N` (one-based) — not by reading structured fields. -/
def extractLineCol (errMsg : String) : Option Int × Option Int :=
  ((scanKwNum "line".data errMsg.data).map (fun n => (n : Int) - 1),
    (scanKwNum "column".data errMsg.data).map (fun n => (n : Int) - 1))

/-- Translated from `validate` in App.jsx: empty (after trimming) input is
its own case with no parse and no cursor movement; otherwise the trimmed
text is parsed, and on failure the cursor moves to the position recovered
from the message — line from `line N` when present, column from
`column N` or `0`. -/
def validate (s : AppState) : AppState × Bool :=
  let t := jsTrim s.doc
  if t = "" then
    ({ s with status := "Please enter JSON.", statusType := some .danger }, false)
  else
    match parse t with
    | .ok _ => ({ s with status := "Valid JSON ✓", statusType := some .success }, true)
    | .error e =>
      let lc := extractLineCol e.message
      let s1 := { s with status := "Invalid JSON: " ++ e.message,
                         statusType := some .danger }
      match lc.1 with
      | some l => ({ s1 with cursor := some (l, lc.2.getD 0) }, false)
      | none => (s1, false)

/-- Translated from `formatJson` in App.jsx: on a successful parse the
document is replaced by the pretty print at the configured indent and the
KPIs refresh; on failure it falls through to `validate`, leaving the
document untouched. -/
def formatJson (ind : Nat) (s : AppState) : AppState :=
  match parse s.doc with
  | .ok v =>
    updateKpis { s with doc := prettyPrint ind v,
                        status := "Formatted with " ++ toString ind ++ " spaces.",
                        statusType := some .success }
  | .error _ => (validate s).1

/-- Translated from `minifyJson` in App.jsx. -/
def minifyJson (s : AppState) : AppState :=
  match parse s.doc with
  | .ok v =>
    updateKpis { s with doc := minify v,
                        status := "Minified JSON.",
                        statusType := some .success }
  | .error _ => (validate s).1

/-- Translated from `sortKeys` in App.jsx: parse, sort keys recursively,
pretty print at a fixed 2-space indent; on failure fall through to
`validate`. -/
def sortKeys (s : AppState) : AppState :=
  match parse s.doc with
  | .ok v =>
    updateKpis { s with doc := prettyPrint 2 (sortKeysDeep v),
                        status := "Sorted keys recursively.",
                        statusType := some .success }
  | .error _ => (validate s).1

/-- Text-level minification as the Minify button performs it: parse the
document text, reserialize without whitespace; `none` on malformed input. -/
def textMinify (t : String) : Option String :=
  (okOf (parse t)).map minify

/-! ## Debounced editing model (the `change` handler in App.jsx) -/

/-- The debounce delay, in milliseconds, of the editor change handler. -/
def debounceDelayMs : Nat := 400

/-- Shell state: the app state plus the single cancellable pending
validation task and the auto-validate flag the handler closure captured. -/
structure UiState where
  app : AppState
  pendingTimer : Bool
  autoValidate : Bool

/-- Translated from the `change` handler in App.jsx: on every edit the
KPIs update immediately, the pending timer (if any) is cancelled, and a
fresh 400ms validation task is scheduled. -/
def handleChange (u : UiState) (newText : String) : UiState :=
  { u with app := updateKpis { u.app with doc := newText }, pendingTimer := true }

/-- Translated from the timer callback in App.jsx: when the debounce
window elapses with a task still pending, validate the *current* document
and upgrade the banner to `Looks good ✓` on success. -/
def fireTimer (u : UiState) : UiState :=
  if u.pendingTimer then
    if u.autoValidate then
      let r := validate u.app
      if r.2 then
        { u with app := { r.1 with status := "Looks good ✓" }, pendingTimer := false }
      else { u with app := r.1, pendingTimer := false }
    else { u with pendingTimer := false }
  else u

/-- The Validate button: runs `validate` synchronously on the current
state, independent of any pending debounce task. -/
def clickValidate (u : UiState) : UiState :=
  { u with app := (validate u.app).1 }

/-- Leading-run test used to recognize the generic error banner. -/
def startsList : List Char → List Char → Bool
  | [], _ => true
  | _ :: _, [] => false
  | a :: as, b :: bs => a = b && startsList as bs

/-- Does a status banner use the generic grammar-failure shape
(`Invalid JSON: ...`)? -/
def isGenericErrorStatus (st : String) : Bool :=
  startsList "Invalid JSON: ".data st.data

/-- A neutral initial application state over a given document. -/
def mkState (doc : String) : AppState :=
  { doc := doc, status := "", statusType := none, cursor := none,
    kpiSize := 0, kpiLines := 0, kpiKeys := .unknown }


/-! ## Helper lemmas -/

theorem splitSegs_ne_nil : ∀ cs, splitSegs cs ≠ [] := by
  intro cs
  match cs with
  | [] => simp [splitSegs]
  | [c] => simp only [splitSegs]; split <;> simp
  | c :: c2 :: cs =>
    simp only [splitSegs]
    split
    · split <;> simp
    · split
      · simp
      · rcases h : splitSegs (c2 :: cs) with _ | ⟨s, ss⟩ <;> simp

theorem lineSegs_eq_splitSegs (cs : List Char) :
    lineSegs cs = (splitSegs cs).length := by
  induction cs using lineSegs.induct with
  | case1 => rfl
  | case2 c h => simp [lineSegs, splitSegs, if_pos h]
  | case3 c h => simp [lineSegs, splitSegs, if_neg h]
  | case4 cs ih => simp [lineSegs, splitSegs, ih]
  | case5 c2 cs h ih => simp [lineSegs, splitSegs, if_neg h, ih]
  | case6 c2 cs h ih => simp [lineSegs, splitSegs, ih]
  | case7 c c2 cs h1 h2 ih =>
    simp only [lineSegs, splitSegs, if_neg h1, if_neg h2]
    rcases h : splitSegs (c2 :: cs) with _ | ⟨s, ss⟩
    · exact absurd h (splitSegs_ne_nil (c2 :: cs))
    · rw [ih, h]; simp

theorem validate_doc (s : AppState) : (validate s).1.doc = s.doc := by
  simp only [validate]
  split
  · rfl
  · split
    · rfl
    · split <;> rfl

theorem handleChange_handleChange (u : UiState) (s t : String) :
    handleChange (handleChange u s) t = handleChange u t := by
  simp [handleChange, updateKpis]

theorem foldl_handleChange (u : UiState) (t : String) (ts : List String) :
    List.foldl handleChange u (ts ++ [t]) = handleChange u t := by
  induction ts generalizing u with
  | nil => rfl
  | cons s rest ih =>
    rw [List.cons_append, List.foldl_cons, ih, handleChange_handleChange]

/-! ## Claim C5 -/

/-- C5: the parser rejects every deviation from the strict JSON grammar —
shown at the spec's cited instance `{"a":1,}` (trailing comma) and at
representative inputs for each listed class: comments, unquoted object
keys, single-quoted strings and keys, bare `NaN` / `Infinity` /
`-Infinity`. -/
theorem c5_strict_grammar_rejections :
    (parse "\x7b\"a\":1,\x7d").isOk = false ∧
    (parse "[1,2,]").isOk = false ∧
    (parse "\x7b\"a\":1\x7d // comment").isOk = false ∧
    (parse "/* c */ \x7b\x7d").isOk = false ∧
    (parse "\x7ba:1\x7d").isOk = false ∧
    (parse "'a'").isOk = false ∧
    (parse "\x7b'a':1\x7d").isOk = false ∧
    (parse "NaN").isOk = false ∧
    (parse "Infinity").isOk = false ∧
    (parse "-Infinity").isOk = false ∧
    (parse "\x7b\"a\":1\x7d").isOk = true ∧
    (parse "[1,2]").isOk = true := by
  decide

/-! ## Claim C3 -/

/-- C3 counterexample: for the scalar document `"a string"` the Keys KPI
is the count `0`, not the Unknown sentinel the claim requires for every
scalar top-level value. -/
theorem c3_scalar_counterexample :
    (updateKpis (mkState "\"a string\"")).kpiKeys = KpiKeys.count 0 ∧
    (updateKpis (mkState "\"a string\"")).kpiKeys ≠ KpiKeys.unknown := by
  decide

/-- C3 (amended): the cardinality KPI is the element count for a top-level
Array, the key count for an Object, `0` (not Unknown) for every scalar
top-level value including `null`, and the Unknown sentinel exactly on
parse failure; it is a total function, so malformed input never raises. -/
theorem c3_cardinality_amended :
    (∀ s : AppState, (updateKpis s).kpiKeys =
      match okOf (parse s.doc) with
      | some v => KpiKeys.count (topCount v)
      | none => KpiKeys.unknown) ∧
    (∀ l, topCount (.arr l) = l.length) ∧
    (∀ m, topCount (.obj m) = m.length) ∧
    (updateKpis (mkState "[1,2,3]")).kpiKeys = KpiKeys.count 3 ∧
    (updateKpis (mkState "\x7b\"a\":1,\"b\":2\x7d")).kpiKeys = KpiKeys.count 2 ∧
    (updateKpis (mkState "\"a string\"")).kpiKeys = KpiKeys.count 0 ∧
    (updateKpis (mkState "null")).kpiKeys = KpiKeys.count 0 ∧
    (updateKpis (mkState "true")).kpiKeys = KpiKeys.count 0 ∧
    (updateKpis (mkState "42")).kpiKeys = KpiKeys.count 0 ∧
    (updateKpis (mkState "\x7b\"a\":1,")).kpiKeys = KpiKeys.unknown ∧
    (updateKpis (mkState "")).kpiKeys = KpiKeys.unknown := by
  refine ⟨?_, by intro l; rfl, by intro m; rfl, ?_, ?_, ?_, ?_, ?_, ?_, ?_, ?_⟩
  · intro s
    cases h : parse s.doc with
    | ok v => simp [updateKpis, okOf, h]
    | error e => simp [updateKpis, okOf, h]
  all_goals decide

/-! ## Claim C7 -/

/-- C7 counterexample: on `"a\nb\n"` the line count is 3 — the trailing
terminator opens a further, empty line — where the claim demands 2. -/
theorem c7_trailing_newline_counterexample :
    lineSegs "a\nb\n".data = 3 ∧ lineSegs "a\nb\n".data ≠ 2 := by
  decide

/-- C7 (amended): `lineCount` returns the number of line-separator-delimited
segments including the (possibly empty) segment after the final separator,
so a trailing terminator does start an extra line: it is the length of the
segment split, with `"a\nb"` → 2, `""` → 1, `"a\nb\nc"` → 3 and
`"a\nb\n"` → 3; `updateKpis` publishes exactly this count. -/
theorem c7_line_count_amended :
    (∀ cs, lineSegs cs = (splitSegs cs).length) ∧
    (∀ s : AppState, (updateKpis s).kpiLines = lineSegs s.doc.data) ∧
    lineSegs "a\nb".data = 2 ∧
    lineSegs "".data = 1 ∧
    lineSegs "a\nb\nc".data = 3 ∧
    lineSegs "a\nb\n".data = 3 ∧
    lineSegs "a\r\nb".data = 2 := by
  refine ⟨lineSegs_eq_splitSegs, ?_, by decide, by decide, by decide, by decide, by decide⟩
  intro s
  cases h : parse s.doc with
  | ok v => simp [updateKpis, h]
  | error e => simp [updateKpis, h]

/-! ## Claim C6 -/

/-- C6: empty or whitespace-only input takes the distinct empty-input path:
the status is the dedicated `Please enter JSON.` message, which is not the
generic `Invalid JSON: ...` grammar-failure banner, and no line/column is
produced — the cursor is left untouched. -/
theorem c6_empty_input_distinct (s : AppState) (h : jsTrim s.doc = "") :
    (validate s).1.status = "Please enter JSON." ∧
    (validate s).1.statusType = some StatusType.danger ∧
    isGenericErrorStatus (validate s).1.status = false ∧
    (validate s).1.cursor = s.cursor ∧
    (validate s).2 = false := by
  refine ⟨?_, ?_, ?_, ?_, ?_⟩ <;> simp [validate, h]
  decide

/-- C6 witness at the whitespace-only document `"  \n "`. -/
theorem c6_empty_input_distinct_witness :
    jsTrim (mkState "  \n ").doc = "" ∧
    ((validate (mkState "  \n ")).1.status = "Please enter JSON." ∧
     (validate (mkState "  \n ")).1.statusType = some StatusType.danger ∧
     isGenericErrorStatus (validate (mkState "  \n ")).1.status = false ∧
     (validate (mkState "  \n ")).1.cursor = (mkState "  \n ").cursor ∧
     (validate (mkState "  \n ")).2 = false) :=
  ⟨by decide, c6_empty_input_distinct (mkState "  \n ") (by decide)⟩

/-! ## Claim C8 -/

/-- C8 counterexample: for the document `{"a":}` the parser's structured
error carries column 5, yet the cursor lands at column 0, because the
locator pattern-matches the free-text message (which, in jsonlint's
format, names only the line) instead of reading the structured fields;
`extractLineCol` is a pure function of the message text. -/
theorem c8_position_counterexample :
    (validate (mkState "\x7b\"a\":\x7d")).1.cursor = some ((0 : Int), (0 : Int)) ∧
    (match parse "\x7b\"a\":\x7d" with
     | .error e => e.col
     | .ok _ => none) = some 5 ∧
    (validate (mkState "\x7b\"a\":\x7d")).1.cursor ≠ some ((0 : Int), (5 : Int)) ∧
    extractLineCol "no position here" = (none, none) ∧
    extractLineCol "see line 7, column 4" = (some 6, some 3) := by
  decide

/-- C8 (amended): on a parse failure of non-empty input the status shows
the error message, and the cursor position is reconstructed by
regex-matching that free-text message — `line N` / `column N`, one-based,
converted to zero-based — with the column defaulting to 0 when only a line
is found; when not even a line is found the message is shown alone and the
cursor is left untouched. -/
theorem c8_error_locator_amended (s : AppState) (e : ParseError)
    (hne : ¬ jsTrim s.doc = "") (hp : parse (jsTrim s.doc) = .error e) :
    (validate s).1.status = "Invalid JSON: " ++ e.message ∧
    (validate s).1.statusType = some StatusType.danger ∧
    (validate s).1.cursor =
      (match (extractLineCol e.message).1 with
       | some l => some (l, ((extractLineCol e.message).2).getD 0)
       | none => s.cursor) := by
  rcases h : (extractLineCol e.message).1 with _ | l <;>
    simp [validate, hne, hp, h]

/-- C8 amended-claim witness at the malformed document `[1,`. -/
theorem c8_error_locator_amended_witness :
    ¬ jsTrim (mkState "[1,").doc = "" ∧
    parse (jsTrim (mkState "[1,").doc) =
      .error ⟨"Parse error on line 1:\nExpecting value", some 0, some 3⟩ ∧
    ((validate (mkState "[1,")).1.status =
      "Invalid JSON: " ++ (ParseError.mk "Parse error on line 1:\nExpecting value"
        (some 0) (some 3)).message ∧
     (validate (mkState "[1,")).1.statusType = some StatusType.danger ∧
     (validate (mkState "[1,")).1.cursor =
      (match (extractLineCol (ParseError.mk "Parse error on line 1:\nExpecting value"
          (some 0) (some 3)).message).1 with
       | some l => some (l, ((extractLineCol (ParseError.mk
           "Parse error on line 1:\nExpecting value" (some 0) (some 3)).message).2).getD 0)
       | none => (mkState "[1,").cursor)) :=
  ⟨by decide, by rfl,
    c8_error_locator_amended (mkState "[1,") _ (by decide) (by rfl)⟩

/-! ## Claim C4 -/

/-- C4: when the parse fails, each of Format, Minify and Sort leaves the
document text unchanged and produces exactly the state the validation path
produces — the identical status, banner type and cursor (the whole
resulting state is the `validate` state, whose document equals the
input document). -/
theorem c4_error_passthrough (s : AppState) (ind : Nat) (e : ParseError)
    (hp : parse s.doc = .error e) :
    formatJson ind s = (validate s).1 ∧
    minifyJson s = (validate s).1 ∧
    sortKeys s = (validate s).1 ∧
    (validate s).1.doc = s.doc := by
  refine ⟨?_, ?_, ?_, validate_doc s⟩ <;>
    simp [formatJson, minifyJson, sortKeys, hp]

/-- C4 witness at the malformed document `{`. -/
theorem c4_error_passthrough_witness :
    parse (mkState "\x7b").doc =
      .error ⟨"Parse error on line 1:\nExpecting string", some 0, some 1⟩ ∧
    (formatJson 2 (mkState "\x7b") = (validate (mkState "\x7b")).1 ∧
     minifyJson (mkState "\x7b") = (validate (mkState "\x7b")).1 ∧
     sortKeys (mkState "\x7b") = (validate (mkState "\x7b")).1 ∧
     (validate (mkState "\x7b")).1.doc = (mkState "\x7b").doc) :=
  ⟨by rfl, c4_error_passthrough (mkState "\x7b") 2 _ (by rfl)⟩

/-! ## Claim C9 -/

/-- C9 counterexample: one edit event updates the metrics KPIs immediately,
before any debounce task fires — the pending task is freshly scheduled and
has not run (the status is untouched), yet the Keys KPI already reflects
the new document, refuting the claim that metrics are delivered through
the debounce window. -/
theorem c9_metrics_not_debounced_counterexample :
    (UiState.mk (mkState "x") false true).app.kpiKeys = KpiKeys.unknown ∧
    (handleChange (UiState.mk (mkState "x") false true) "[1,2]").app.kpiKeys
      = KpiKeys.count 2 ∧
    (handleChange (UiState.mk (mkState "x") false true) "[1,2]").app.status
      = (mkState "x").status ∧
    (handleChange (UiState.mk (mkState "x") false true) "[1,2]").pendingTimer
      = true := by
  decide

/-- C9 (amended): the debounce window is 400ms; each edit immediately
updates the metrics and replaces the document while leaving the status to
the debounced validation task, of which exactly one is pending; the fold
of any edit sequence collapses to its last edit (last-edit-wins — a later
fire can only observe the most recent edit), a fire with no pending task
is a no-op, and the explicit Validate button runs synchronously regardless
of any pending task. -/
theorem c9_debounce_amended :
    debounceDelayMs = 400 ∧
    (∀ u t, (handleChange u t).pendingTimer = true ∧
            (handleChange u t).app.doc = t ∧
            (handleChange u t).app.kpiLines = lineSegs t.data ∧
            (handleChange u t).app.status = u.app.status) ∧
    (∀ u t ts, List.foldl handleChange u (ts ++ [t]) = handleChange u t) ∧
    (∀ a av, fireTimer (UiState.mk a false av) = UiState.mk a false av) ∧
    (∀ u, (clickValidate u).app = (validate u.app).1 ∧
          (clickValidate u).pendingTimer = u.pendingTimer) := by
  refine ⟨rfl, ?_, ?_, ?_, ?_⟩
  · intro u t
    refine ⟨rfl, rfl, ?_, rfl⟩
    cases h : parse t with
    | ok v => simp [handleChange, updateKpis, h]
    | error e => simp [handleChange, updateKpis, h]
  · intro u t ts
    exact foldl_handleChange u t ts
  · intro a av
    simp [fireTimer]
  · intro u
    exact ⟨rfl, rfl⟩

/-! ## Character and whitespace lemmas -/

theorem char_toNat_ofNat {n : Nat} (h : n < 55296) : (Char.ofNat n).toNat = n := by
  have hv : Nat.isValidChar n := Or.inl h
  simp only [Char.ofNat, dif_pos hv]
  rfl

theorem char_ofNat_toNat (c : Char) : Char.ofNat c.toNat = c := by
  have hv : Nat.isValidChar c.toNat := c.valid
  simp only [Char.ofNat, dif_pos hv]
  apply Char.eq_of_val_eq
  apply UInt32.eq_of_toBitVec_eq
  apply BitVec.eq_of_toNat_eq
  rfl

theorem isDigitChar_iff {c : Char} :
    isDigitChar c = true ↔ 48 ≤ c.toNat ∧ c.toNat ≤ 57 := by
  simp [isDigitChar]

theorem char_ne_of_toNat {c d : Char} (h : ¬ c.toNat = d.toNat) : ¬ c = d :=
  fun hE => h (congrArg Char.toNat hE)

theorem digit_not_ws {c : Char} (h : isDigitChar c = true) : isWsChar c = false := by
  rw [isDigitChar_iff] at h
  have h1 : ¬ c = ' ' := char_ne_of_toNat (by have e : (' ').toNat = 32 := rfl; omega)
  have h2 : ¬ c = '\t' := char_ne_of_toNat (by have e : ('\t').toNat = 9 := rfl; omega)
  have h3 : ¬ c = '\r' := char_ne_of_toNat (by have e : ('\r').toNat = 13 := rfl; omega)
  have h4 : ¬ c = '\n' := char_ne_of_toNat (by have e : ('\n').toNat = 10 := rfl; omega)
  simp [isWsChar, h1, h2, h3, h4]

theorem digit_ne_brace {c : Char} (h : isDigitChar c = true) : ¬ c = '\x7b' := by
  rw [isDigitChar_iff] at h
  exact char_ne_of_toNat (by have e : ('\x7b').toNat = 123 := rfl; omega)

theorem digit_ne_bracket {c : Char} (h : isDigitChar c = true) : ¬ c = '[' := by
  rw [isDigitChar_iff] at h
  exact char_ne_of_toNat (by have e : ('[').toNat = 91 := rfl; omega)

theorem digit_ne_quote {c : Char} (h : isDigitChar c = true) : ¬ c = '"' := by
  rw [isDigitChar_iff] at h
  exact char_ne_of_toNat (by have e : ('"').toNat = 34 := rfl; omega)

theorem digit_ne_t {c : Char} (h : isDigitChar c = true) : ¬ c = 't' := by
  rw [isDigitChar_iff] at h
  exact char_ne_of_toNat (by have e : ('t').toNat = 116 := rfl; omega)

theorem digit_ne_f {c : Char} (h : isDigitChar c = true) : ¬ c = 'f' := by
  rw [isDigitChar_iff] at h
  exact char_ne_of_toNat (by have e : ('f').toNat = 102 := rfl; omega)

theorem digit_ne_n {c : Char} (h : isDigitChar c = true) : ¬ c = 'n' := by
  rw [isDigitChar_iff] at h
  exact char_ne_of_toNat (by have e : ('n').toNat = 110 := rfl; omega)

theorem digit_ne_minus {c : Char} (h : isDigitChar c = true) : ¬ c = '-' := by
  rw [isDigitChar_iff] at h
  exact char_ne_of_toNat (by have e : ('-').toNat = 45 := rfl; omega)

theorem digit_ne_dot {c : Char} (h : isDigitChar c = true) : ¬ c = '.' := by
  rw [isDigitChar_iff] at h
  exact char_ne_of_toNat (by have e : ('.').toNat = 46 := rfl; omega)

theorem digit_ne_zero_of_toNat {c : Char} (h : 49 ≤ c.toNat) : ¬ c = '0' :=
  char_ne_of_toNat (by have e : ('0').toNat = 48 := rfl; omega)

theorem skipWs_cons_not {c : Char} (h : isWsChar c = false) (l : List Char) :
    skipWs (c :: l) = c :: l := by
  simp [skipWs, h]

theorem skipWs_idem (cs : List Char) : skipWs (skipWs cs) = skipWs cs := by
  induction cs with
  | nil => rfl
  | cons c l ih =>
    by_cases hc : isWsChar c = true
    · simp [skipWs, hc, ih]
    · simp only [Bool.not_eq_true] at hc
      simp [skipWs, hc]

theorem skipWs_replicate_space (n : Nat) (l : List Char) :
    skipWs (List.replicate n ' ' ++ l) = skipWs l := by
  induction n with
  | zero => rfl
  | succ n ih => simpa [List.replicate_succ, skipWs, isWsChar] using ih

theorem skipWs_nlPad (ind d : Nat) (l : List Char) :
    skipWs (nlPad ind d ++ l) = skipWs l := by
  by_cases h : ind = 0
  · simp [nlPad, h]
  · simpa [nlPad, h, skipWs, isWsChar] using skipWs_replicate_space (ind * d) l

theorem ws_not_numCont {c : Char} (h : isWsChar c = true) :
    (isDigitChar c || c = '.' || c = 'e' || c = 'E' || c = '+' || c = '-') = false := by
  simp only [isWsChar, Bool.or_eq_true, decide_eq_true_eq] at h
  rcases h with ((h | h) | h) | h <;> subst h <;> decide

/-! ## Digit-run lemmas -/

theorem foldDigits_append (acc : Nat) (ds es : List Char) :
    foldDigits acc (ds ++ es) = foldDigits (foldDigits acc ds) es := by
  simp [foldDigits, List.foldl_append]

theorem foldDigits_zero_cons (ds : List Char) :
    foldDigits 0 ('0' :: ds) = foldDigits 0 ds := by
  have e : ('0').toNat = 48 := rfl
  simp [foldDigits, e]

theorem foldDigits_replicate_zeros (k : Nat) (ds : List Char) :
    foldDigits 0 (List.replicate k '0' ++ ds) = foldDigits 0 ds := by
  induction k with
  | zero => rfl
  | succ k ih => simpa [List.replicate_succ, foldDigits_zero_cons] using ih

theorem natDigitsFuel_zero (f : Nat) : natDigitsFuel f 0 = [] := by
  cases f <;> rfl

theorem natDigitsFuel_spec :
    ∀ f n : Nat, 1 ≤ n → n ≤ f →
      ∃ c l, natDigitsFuel f n = c :: l ∧ ¬ c = '0' ∧
        (∀ x ∈ c :: l, isDigitChar x = true) ∧ foldDigits 0 (c :: l) = n := by
  intro f
  induction f with
  | zero => intro n h1 h2; omega
  | succ f ih =>
    intro n h1 h2
    match n, h1 with
    | n + 1, _ =>
      rw [natDigitsFuel]
      by_cases hq : (n + 1) / 10 = 0
      · have hlt : n + 1 < 10 := by omega
        have hmod : (n + 1) % 10 = n + 1 := Nat.mod_eq_of_lt hlt
        rw [hq, natDigitsFuel_zero, List.nil_append]
        refine ⟨Char.ofNat ((n + 1) % 10 + 48), [], rfl, ?_, ?_, ?_⟩
        · exact digit_ne_zero_of_toNat (by rw [char_toNat_ofNat (by omega)]; omega)
        · intro x hx
          simp only [List.mem_singleton] at hx
          subst hx
          rw [isDigitChar_iff, char_toNat_ofNat (by omega)]
          omega
        · simp [foldDigits, char_toNat_ofNat (show (n + 1) % 10 + 48 < 55296 by omega)]
          omega
      · have hq1 : 1 ≤ (n + 1) / 10 := Nat.pos_of_ne_zero hq
        have hq2 : (n + 1) / 10 ≤ f := by
          have := Nat.div_lt_self (show 0 < n + 1 by omega) (show 1 < 10 by omega)
          omega
        obtain ⟨c, l, hEq, hc0, hall, hfold⟩ := ih ((n + 1) / 10) hq1 hq2
        refine ⟨c, l ++ [Char.ofNat ((n + 1) % 10 + 48)], by rw [hEq]; simp, hc0, ?_, ?_⟩
        · intro x hx
          rcases List.mem_cons.1 hx with hx | hx
          · exact hall x (by simp [hx])
          · rcases List.mem_append.1 hx with hx | hx
            · exact hall x (by simp [hx])
            · simp only [List.mem_singleton] at hx
              subst hx
              rw [isDigitChar_iff, char_toNat_ofNat (by omega)]
              omega
        · have : foldDigits 0 ((c :: l) ++ [Char.ofNat ((n + 1) % 10 + 48)]) =
              foldDigits (foldDigits 0 (c :: l)) [Char.ofNat ((n + 1) % 10 + 48)] :=
            foldDigits_append 0 (c :: l) _
          simp only [List.cons_append] at this ⊢
          rw [this, hfold]
          simp [foldDigits, char_toNat_ofNat (show (n + 1) % 10 + 48 < 55296 by omega)]
          omega

theorem natToDigitChars_spec (n : Nat) :
    ∃ c l, natToDigitChars n = c :: l ∧ isDigitChar c = true ∧
      (∀ x ∈ c :: l, isDigitChar x = true) ∧ foldDigits 0 (c :: l) = n ∧
      (1 ≤ n → ¬ c = '0') := by
  by_cases h : n = 0
  · subst h
    exact ⟨'0', [], rfl, by decide, by decide, by decide, by omega⟩
  · obtain ⟨c, l, hEq, hc0, hall, hfold⟩ :=
      natDigitsFuel_spec n n (by omega) (le_refl n)
    exact ⟨c, l, by rw [natToDigitChars, if_neg h]; exact hEq,
      hall c (by simp), hall, hfold, fun _ => hc0⟩

theorem takeDigits_append (ds rs : List Char)
    (hds : ∀ x ∈ ds, isDigitChar x = true)
    (hrs : ∀ c, rs.head? = some c → isDigitChar c = false) :
    takeDigits (ds ++ rs) = (ds, rs) := by
  induction ds with
  | nil =>
    cases rs with
    | nil => rfl
    | cons c t => simp [takeDigits, hrs c rfl]
  | cons d ds ih =>
    have hd : isDigitChar d = true := hds d (by simp)
    have ih2 := ih (fun x hx => hds x (by simp [hx]))
    simp [takeDigits, hd, ih2]
/-! ## Number round-trip lemmas -/

theorem nBnd_cons {c : Char} {r : List Char} (h : nBnd (c :: r) = true) :
    isDigitChar c = false ∧ ¬ c = '.' ∧ ¬ c = 'e' ∧ ¬ c = 'E' ∧
      ¬ c = '+' ∧ ¬ c = '-' := by
  simp [nBnd] at h
  tauto

theorem nBnd_head_not_digit {rs : List Char} (h : nBnd rs = true) :
    ∀ c, rs.head? = some c → isDigitChar c = false := by
  intro c hc
  cases rs with
  | nil => simp at hc
  | cons x r =>
    simp only [List.head?_cons, Option.some.injEq] at hc
    subst hc
    exact (nBnd_cons h).1

theorem normNum_eq_self {m : Int} (e : Nat) (h : ¬ m % 10 = 0) :
    normNum m e = (m, e) := by
  cases e with
  | zero => rfl
  | succ e => simp [normNum, h]

theorem mkNumVal_no_frac (neg : Bool) (ip : List Char) :
    mkNumVal neg ip [] 0 =
      (if neg then -(foldDigits 0 ip : Int) else (foldDigits 0 ip : Int), 0) := by
  simp [mkNumVal]

theorem mkNumVal_frac (neg : Bool) (ip fp : List Char) (hfp : ¬ fp.length = 0)
    (hm : ¬ (foldDigits 0 (ip ++ fp) : Int) % 10 = 0) :
    mkNumVal neg ip fp 0 =
      (if neg then -(foldDigits 0 (ip ++ fp) : Int)
       else (foldDigits 0 (ip ++ fp) : Int), fp.length) := by
  have hpos : ¬ ((fp.length : Int) - 0 ≤ 0) := by omega
  simp only [mkNumVal, hpos, if_false]
  rw [show ((fp.length : Int) - 0).toNat = fp.length by omega]
  rw [normNum_eq_self fp.length hm]

theorem parseExpPart_boundary (neg : Bool) (ip fp rest : List Char)
    (hb : nBnd rest = true) :
    parseExpPart neg ip fp rest = .ok (mkNumVal neg ip fp 0, rest) := by
  cases rest with
  | nil => rfl
  | cons c r =>
    obtain ⟨_, _, he, hE, _, _⟩ := nBnd_cons hb
    have : ¬ (c = 'e' ∨ c = 'E') := by tauto
    simp [parseExpPart, this]

theorem numBody_head (n e : Nat) :
    ∃ c l, numBody n e = c :: l ∧ isDigitChar c = true := by
  obtain ⟨c, l, hS, hcd, hall, hfold, hc0⟩ := natToDigitChars_spec n
  unfold numBody
  rw [hS]
  by_cases h0 : e = 0
  · exact ⟨c, l, by rw [if_pos h0], hcd⟩
  · by_cases hel : e < (c :: l).length
    · rw [if_neg h0, if_pos hel]
      have hk : ∃ k, (c :: l).length - e = k + 1 := by
        refine ⟨(c :: l).length - e - 1, ?_⟩
        omega
      obtain ⟨k, hk⟩ := hk
      rw [hk, List.take_succ_cons]
      exact ⟨c, _, rfl, hcd⟩
    · rw [if_neg h0, if_neg hel]
      exact ⟨'0', _, rfl, by decide⟩

theorem parseNumBody_render (n e : Nat) (neg : Bool)
    (hwf : e = 0 ∨ ¬ n % 10 = 0) (rest : List Char) (hb : nBnd rest = true) :
    parseNumBody neg (numBody n e ++ rest) =
      .ok ((if neg then -(n : Int) else (n : Int), e), rest) := by
  obtain ⟨c, l, hS, hcd, hall, hfold, hc0⟩ := natToDigitChars_spec n
  have hbd := nBnd_head_not_digit hb
  rcases e with _ | e
  · -- integer case
    have hbody : numBody n 0 = c :: l := by rw [numBody]; simpa using hS
    rw [hbody]
    have htake : takeDigits ((c :: l) ++ rest) = (c :: l, rest) :=
      takeDigits_append (c :: l) rest hall hbd
    have hzero : ¬ (c = '0' ∧ l ≠ []) := by
      by_cases hn : n = 0
      · subst hn
        have : (c :: l : List Char) = ['0'] := by
          rw [← hbody]; rfl
        intro ⟨h1, h2⟩
        apply h2
        simpa using congrArg List.tail this
      · intro ⟨h1, _⟩
        exact hc0 (by omega) h1
    rw [parseNumBody, htake]
    simp only [hzero, if_false]
    cases rest with
    | nil =>
      rw [parseExpPart_boundary neg (c :: l) [] [] (by decide)]
      rw [mkNumVal_no_frac, hfold]
    | cons c2 r =>
      obtain ⟨_, hdot, _, _, _, _⟩ := nBnd_cons hb
      simp only [hdot, if_false]
      rw [parseExpPart_boundary neg (c :: l) [] (c2 :: r) hb]
      rw [mkNumVal_no_frac, hfold]
  · -- fractional case
    have hm : ¬ n % 10 = 0 := by
      rcases hwf with h | h
      · omega
      · exact h
    have hn1 : 1 ≤ n := by omega
    have hcz : ¬ c = '0' := hc0 hn1
    have hmz : ¬ (foldDigits 0 (c :: l) : Int) % 10 = 0 := by
      rw [hfold]; omega
    by_cases hel : e + 1 < (c :: l).length
    · -- decimal point inside the digits
      obtain ⟨k, hk⟩ : ∃ k, (c :: l).length - (e + 1) = k + 1 :=
        ⟨(c :: l).length - (e + 1) - 1, by omega⟩
      have hbody : numBody n (e + 1) =
          c :: l.take k ++ '.' :: (c :: l).drop (k + 1) := by
        rw [numBody]
        simp only [hS]
        rw [if_neg (by omega), if_pos hel, hk, List.take_succ_cons]
      have hsplit : (c :: l.take k) ++ (c :: l).drop (k + 1) = c :: l := by
        have : (c :: l).take (k + 1) = c :: l.take k := List.take_succ_cons
        rw [← this, List.take_append_drop]
      rw [hbody]
      have hip : ∀ x ∈ c :: l.take k, isDigitChar x = true := by
        intro x hx
        apply hall
        rcases List.mem_cons.1 hx with hx | hx
        · simp [hx]
        · exact List.mem_cons_of_mem c (List.take_subset k l hx)
      have hfp : ∀ x ∈ (c :: l).drop (k + 1), isDigitChar x = true :=
        fun x hx => hall x (List.drop_subset (k + 1) (c :: l) hx)
      have htake1 : takeDigits ((c :: l.take k) ++ '.' :: ((c :: l).drop (k + 1) ++ rest))
          = (c :: l.take k, '.' :: ((c :: l).drop (k + 1) ++ rest)) :=
        takeDigits_append _ _ hip (by intro x hx; simp at hx; subst hx; decide)
      have hassoc : (c :: l.take k ++ '.' :: (c :: l).drop (k + 1)) ++ rest =
          (c :: l.take k) ++ '.' :: ((c :: l).drop (k + 1) ++ rest) := by
        simp
      rw [hassoc, parseNumBody, htake1]
      simp only [hcz, false_and, if_false]
      have hdroplen : ((c :: l).drop (k + 1)).length = e + 1 := by
        rw [List.length_drop]
        simp only [List.length_cons] at hk hel ⊢
        omega
      obtain ⟨f, fs, hdropEq⟩ : ∃ f fs, (c :: l).drop (k + 1) = f :: fs := by
        rcases hcons : (c :: l).drop (k + 1) with _ | ⟨f, fs⟩
        · rw [hcons] at hdroplen; simp at hdroplen
        · exact ⟨f, fs, rfl⟩
      have htake2 : takeDigits ((f :: fs) ++ rest) = (f :: fs, rest) :=
        takeDigits_append _ _ (by rw [← hdropEq]; exact hfp) hbd
      rw [hdropEq] at htake1 ⊢
      simp only [List.cons_append] at htake2 ⊢
      simp only [htake2]
      rw [parseExpPart_boundary neg _ _ rest hb]
      have hfold2 : foldDigits 0 ((c :: l.take k) ++ (f :: fs)) = n := by
        rw [← hdropEq, hsplit]
        exact hfold
      have hlen2 : (f :: fs).length = e + 1 := by
        rw [← hdropEq]; exact hdroplen
      rw [mkNumVal_frac neg _ _ (by rw [hlen2]; omega)
        (by rw [hfold2]; omega)]
      rw [hfold2, hlen2]
      simp
    · -- leading 0.00... form
      have hbody : numBody n (e + 1) =
          '0' :: '.' :: List.replicate (e + 1 - (c :: l).length) '0' ++ (c :: l) := by
        rw [numBody]
        simp only [hS]
        rw [if_neg (by omega), if_neg hel]
      rw [hbody]
      have hassoc : ('0' :: '.' :: List.replicate (e + 1 - (c :: l).length) '0'
            ++ (c :: l)) ++ rest =
          '0' :: '.' :: (List.replicate (e + 1 - (c :: l).length) '0'
            ++ ((c :: l) ++ rest)) := by
        simp
      rw [hassoc]
      have htake1 : takeDigits ('0' :: '.' :: (List.replicate (e + 1 - (c :: l).length) '0'
            ++ ((c :: l) ++ rest))) =
          (['0'], '.' :: (List.replicate (e + 1 - (c :: l).length) '0'
            ++ ((c :: l) ++ rest))) := by
        have : ('0' :: []) ++ ('.' :: (List.replicate (e + 1 - (c :: l).length) '0'
            ++ ((c :: l) ++ rest))) = '0' :: '.' :: (List.replicate
            (e + 1 - (c :: l).length) '0' ++ ((c :: l) ++ rest)) := by simp
        rw [← this]
        exact takeDigits_append _ _ (by intro x hx; simp at hx; subst hx; decide)
          (by intro x hx; simp at hx; subst hx; decide)
      rw [parseNumBody, htake1]
      simp only [ne_eq, not_true_eq_false, and_false, if_false]
      have hfrac : takeDigits (List.replicate (e + 1 - (c :: l).length) '0'
            ++ ((c :: l) ++ rest)) =
          (List.replicate (e + 1 - (c :: l).length) '0' ++ (c :: l), rest) := by
        have : List.replicate (e + 1 - (c :: l).length) '0' ++ ((c :: l) ++ rest) =
            (List.replicate (e + 1 - (c :: l).length) '0' ++ (c :: l)) ++ rest := by
          simp
        rw [this]
        refine takeDigits_append _ _ ?_ hbd
        intro x hx
        rcases List.mem_append.1 hx with hx | hx
        · rw [List.eq_of_mem_replicate hx]; decide
        · exact hall x hx
      obtain ⟨f, fs, hfEq⟩ : ∃ f fs,
          List.replicate (e + 1 - (c :: l).length) '0' ++ (c :: l) = f :: fs := by
        rcases hcons : List.replicate (e + 1 - (c :: l).length) '0' ++ (c :: l)
          with _ | ⟨f, fs⟩
        · exact absurd (List.append_eq_nil.1 hcons).2 (by simp)
        · exact ⟨f, fs, rfl⟩
      rw [hfEq] at hfrac
      simp only [hfrac]
      rw [parseExpPart_boundary neg _ _ rest hb]
      have hlen2 : (f :: fs).length = e + 1 := by
        have hel2 := hel
        simp only [List.length_cons] at hel2
        rw [← hfEq]
        simp only [List.length_append, List.length_replicate, List.length_cons]
        omega
      have hfold2 : foldDigits 0 (['0'] ++ (f :: fs)) = n := by
        rw [← hfEq]
        have : (['0'] : List Char) ++ (List.replicate (e + 1 - (c :: l).length) '0'
            ++ (c :: l)) = List.replicate (e + 1 - (c :: l).length + 1) '0'
            ++ (c :: l) := by
          simp [List.replicate_succ]
        rw [this, foldDigits_replicate_zeros]
        exact hfold
      rw [mkNumVal_frac neg _ _ (by rw [hlen2]; omega) (by rw [hfold2]; omega)]
      rw [hfold2, hlen2]
      simp

theorem parseNum_render (m : Int) (e : Nat)
    (hwf : e = 0 ∨ ¬ m % 10 = 0) (rest : List Char) (hb : nBnd rest = true) :
    parseNum (renderNum m e ++ rest) = .ok ((m, e), rest) := by
  have hwfn : e = 0 ∨ ¬ m.natAbs % 10 = 0 := by
    rcases hwf with h | h
    · exact Or.inl h
    · exact Or.inr (by omega)
  obtain ⟨c, l, hbodyEq, hcd⟩ := numBody_head m.natAbs e
  by_cases hm : m < 0
  · have hre : renderNum m e ++ rest = '-' :: (numBody m.natAbs e ++ rest) := by
      simp [renderNum, hm]
    rw [hre, parseNum]
    simp only [if_pos rfl]
    rw [parseNumBody_render m.natAbs e true hwfn rest hb]
    have h1 : (if (true : Bool) = true then -((m.natAbs : Int)) else (m.natAbs : Int))
        = -((m.natAbs : Int)) := rfl
    rw [h1, show -((m.natAbs : Int)) = m by omega]
    simp
  · have hre : renderNum m e ++ rest = numBody m.natAbs e ++ rest := by
      simp [renderNum, hm]
    rw [hre, hbodyEq]
    simp only [List.cons_append]
    rw [parseNum]
    rw [if_neg (digit_ne_minus hcd)]
    rw [← List.cons_append, ← hbodyEq]
    rw [parseNumBody_render m.natAbs e false hwfn rest hb]
    have h1 : (if (false : Bool) = true then -((m.natAbs : Int)) else (m.natAbs : Int))
        = ((m.natAbs : Int)) := rfl
    rw [h1, show ((m.natAbs : Int)) = m by omega]
/-! ## String round-trip lemmas -/

theorem hexVal_hexDigitChar : ∀ x, x < 16 → hexVal (hexDigitChar x) = some x := by
  decide

theorem stringMk_data (s : String) : String.mk s.data = s := rfl

theorem quoteStr_append (s : String) (x : List Char) :
    quoteStr s ++ x = '"' :: (quoteBody s.data ++ '"' :: x) := by
  simp [quoteStr]

theorem parseStrBody_quote (l : List Char) : ∀ rest : List Char,
    parseStrBody (quoteBody l ++ '"' :: rest) = .ok (l, rest) := by
  induction l with
  | nil =>
    intro rest
    rw [quoteBody, List.nil_append, parseStrBody.eq_def]
    simp
  | cons c l ih =>
    intro rest
    rw [quoteBody, List.append_assoc]
    by_cases h1 : c = '"'
    · subst h1
      rw [quoteChar]
      simp only [reduceIte, List.cons_append, List.nil_append]
      rw [parseStrBody.eq_def]
      simp [escChar, ih, Except.map]
    by_cases h2 : c = '\\'
    · subst h2
      rw [quoteChar]
      simp only [reduceIte, List.cons_append, List.nil_append]
      rw [parseStrBody.eq_def]
      simp [escChar, ih, Except.map]
    by_cases h3 : c = '\x08'
    · subst h3
      rw [quoteChar]
      simp only [reduceIte, List.cons_append, List.nil_append]
      rw [parseStrBody.eq_def]
      simp [escChar, ih, Except.map]
    by_cases h4 : c = '\x0c'
    · subst h4
      rw [quoteChar]
      simp only [reduceIte, List.cons_append, List.nil_append]
      rw [parseStrBody.eq_def]
      simp [escChar, ih, Except.map]
    by_cases h5 : c = '\n'
    · subst h5
      rw [quoteChar]
      simp only [reduceIte, List.cons_append, List.nil_append]
      rw [parseStrBody.eq_def]
      simp [escChar, ih, Except.map]
    by_cases h6 : c = '\r'
    · subst h6
      rw [quoteChar]
      simp only [reduceIte, List.cons_append, List.nil_append]
      rw [parseStrBody.eq_def]
      simp [escChar, ih, Except.map]
    by_cases h7 : c = '\t'
    · subst h7
      rw [quoteChar]
      simp only [reduceIte, List.cons_append, List.nil_append]
      rw [parseStrBody.eq_def]
      simp [escChar, ih, Except.map]
    by_cases h8 : c.toNat < 0x20
    · rw [quoteChar]
      rw [if_neg h1, if_neg h2, if_neg h3, if_neg h4, if_neg h5, if_neg h6,
        if_neg h7, if_pos h8]
      simp only [List.cons_append, List.nil_append]
      rw [parseStrBody.eq_def]
      simp only [reduceIte]
      rw [hexVal_hexDigitChar _ (by omega), hexVal_hexDigitChar _ (by omega)]
      simp only [show hexVal '0' = some 0 from by decide]
      simp only [ih]
      have hv : c.toNat / 16 * 16 + c.toNat % 16 = c.toNat := by omega
      simp [hv, char_ofNat_toNat, Except.map]
    · rw [quoteChar]
      rw [if_neg h1, if_neg h2, if_neg h3, if_neg h4, if_neg h5, if_neg h6,
        if_neg h7, if_neg h8]
      simp only [List.cons_append, List.nil_append]
      rw [parseStrBody.eq_def]
      simp [h1, h2, h8, ih, Except.map]
/-! ## Render shape lemmas -/

theorem digit_ne_rbracket {c : Char} (h : isDigitChar c = true) : ¬ c = ']' := by
  rw [isDigitChar_iff] at h
  exact char_ne_of_toNat (by have e : (']').toNat = 93 := rfl; omega)

theorem digit_ne_rbrace {c : Char} (h : isDigitChar c = true) : ¬ c = '\x7d' := by
  rw [isDigitChar_iff] at h
  exact char_ne_of_toNat (by have e : ('\x7d').toNat = 125 := rfl; omega)

theorem renderNum_head (m : Int) (e : Nat) :
    ∃ c l, renderNum m e = c :: l ∧ isWsChar c = false ∧ ¬ c = ']' ∧ ¬ c = '\x7d' := by
  by_cases hm : m < 0
  · refine ⟨'-', numBody m.natAbs e, ?_, by decide, by decide, by decide⟩
    rw [renderNum, if_pos hm]
    rfl
  · obtain ⟨c, l, hb, hcd⟩ := numBody_head m.natAbs e
    refine ⟨c, l, ?_, digit_not_ws hcd, digit_ne_rbracket hcd, digit_ne_rbrace hcd⟩
    rw [renderNum, if_neg hm, List.nil_append, hb]

theorem render_head (ind d : Nat) (v : Json) :
    ∃ c l, render ind d v = c :: l ∧ isWsChar c = false ∧ ¬ c = ']' ∧ ¬ c = '\x7d' := by
  cases v with
  | null => exact ⟨'n', _, rfl, by decide, by decide, by decide⟩
  | bool b =>
    cases b
    · exact ⟨'f', _, rfl, by decide, by decide, by decide⟩
    · exact ⟨'t', _, rfl, by decide, by decide, by decide⟩
  | num m e =>
    obtain ⟨c, l, hE, h1, h2, h3⟩ := renderNum_head m e
    exact ⟨c, l, by rw [render, hE], h1, h2, h3⟩
  | str s =>
    exact ⟨'"', quoteBody s.data ++ ['"'], by rw [render, quoteStr]; simp, by decide,
      by decide, by decide⟩
  | arr l =>
    cases l with
    | nil => exact ⟨'[', _, rfl, by decide, by decide, by decide⟩
    | cons v vs => exact ⟨'[', _, rfl, by decide, by decide, by decide⟩
  | obj m =>
    rcases m with _ | ⟨⟨k, v⟩, ps⟩
    · exact ⟨'\x7b', _, rfl, by decide, by decide, by decide⟩
    · exact ⟨'\x7b', _, rfl, by decide, by decide, by decide⟩

theorem skipWs_render (ind d : Nat) (v : Json) (x : List Char) :
    skipWs (render ind d v ++ x) = render ind d v ++ x := by
  obtain ⟨c, l, hE, hws, _, _⟩ := render_head ind d v
  rw [hE, List.cons_append, skipWs_cons_not hws]

theorem parseValue_pre (f : Nat) (pre y : List Char)
    (hpre : ∀ x, skipWs (pre ++ x) = skipWs x) :
    parseValue (f + 1) (pre ++ y) = parseValue (f + 1) y := by
  rw [parseValue, parseValue, hpre y]

theorem colonPad_shape (ind : Nat) :
    ∃ ct, colonPad ind = ':' :: ct ∧ ∀ x, skipWs (ct ++ x) = skipWs x := by
  by_cases h : ind = 0
  · exact ⟨[], by rw [colonPad, if_pos h], fun x => by simp⟩
  · refine ⟨[' '], by rw [colonPad, if_neg h], fun x => ?_⟩
    simp [skipWs, isWsChar]

theorem nBnd_of_skipWs_bracket {tl rest : List Char} (h : skipWs tl = ']' :: rest) :
    nBnd tl = true := by
  cases tl with
  | nil => simp [skipWs] at h
  | cons c t =>
    by_cases hw : isWsChar c = true
    · simp [nBnd, ws_not_numCont hw]
    · rw [skipWs_cons_not (by simpa using hw)] at h
      obtain ⟨h1, h2⟩ := List.cons.inj h
      subst h1
      rfl

theorem nBnd_of_skipWs_brace {tl rest : List Char} (h : skipWs tl = '\x7d' :: rest) :
    nBnd tl = true := by
  cases tl with
  | nil => simp [skipWs] at h
  | cons c t =>
    by_cases hw : isWsChar c = true
    · simp [nBnd, ws_not_numCont hw]
    · rw [skipWs_cons_not (by simpa using hw)] at h
      obtain ⟨h1, h2⟩ := List.cons.inj h
      subst h1
      rfl

/-! ## Fuel budget: the rendering is at least as long as the node count -/

mutual
theorem render_len : ∀ (v : Json) (ind d : Nat), jsize v ≤ (render ind d v).length
  | .null, ind, d => by simp [render, jsize]
  | .bool b, ind, d => by cases b <;> simp [render, jsize]
  | .num m e, ind, d => by
    obtain ⟨c, l, hE, _, _, _⟩ := renderNum_head m e
    have hj : jsize (Json.num m e) = 1 := rfl
    rw [hj, render, hE]
    simp
  | .str s, ind, d => by
    have hj : jsize (Json.str s) = 1 := rfl
    rw [hj, render, quoteStr]
    simp
  | .arr [], ind, d => by simp [render, jsize, jsizeList]
  | .arr (v :: vs), ind, d => by
    have h1 := render_len v ind (d + 1)
    have h2 := render_len_items vs ind (d + 1)
    rw [render, jsize, jsizeList]
    simp only [List.length_cons, List.length_append]
    omega
  | .obj [], ind, d => by simp [render, jsize, jsizeMembers]
  | .obj ((k, v) :: ps), ind, d => by
    have h1 := render_len v ind (d + 1)
    have h2 := render_len_members ps ind (d + 1)
    rw [render, jsize, jsizeMembers]
    simp only [List.length_cons, List.length_append]
    omega
termination_by structural v => v

theorem render_len_items : ∀ (l : List Json) (ind d : Nat),
    jsizeList l ≤ (renderItemsRest ind d l).length
  | [], _, _ => by simp [renderItemsRest, jsizeList]
  | v :: vs, ind, d => by
    have h1 := render_len v ind d
    have h2 := render_len_items vs ind d
    rw [renderItemsRest, jsizeList]
    simp only [List.length_cons, List.length_append]
    omega
termination_by structural l => l

theorem render_len_members : ∀ (l : List (String × Json)) (ind d : Nat),
    jsizeMembers l ≤ (renderMembersRest ind d l).length
  | [], _, _ => by simp [renderMembersRest, jsizeMembers]
  | (k, v) :: ps, ind, d => by
    have h1 := render_len v ind d
    have h2 := render_len_members ps ind d
    rw [renderMembersRest, jsizeMembers]
    simp only [List.length_cons, List.length_append]
    omega
termination_by structural l => l
end
/-! ## Well-formedness projections -/

theorem jsize_pos (v : Json) : 1 ≤ jsize v := by
  cases v <;> simp [jsize]

theorem jsonWf_num {m : Int} {e : Nat} (h : JsonWf (Json.num m e) = true) :
    e = 0 ∨ ¬ m % 10 = 0 := by
  rw [JsonWf] at h
  simpa using h

theorem jsonWf_arr {l : List Json} (h : JsonWf (Json.arr l) = true) :
    JsonWfList l = true := by
  rw [JsonWf] at h
  exact h

theorem jsonWf_obj {m : List (String × Json)} (h : JsonWf (Json.obj m) = true) :
    keysDistinct m = true ∧ JsonWfMembers m = true := by
  rw [JsonWf, Bool.and_eq_true] at h
  exact h

theorem jsonWfList_cons {v : Json} {vs : List Json}
    (h : JsonWfList (v :: vs) = true) :
    JsonWf v = true ∧ JsonWfList vs = true := by
  rw [JsonWfList, Bool.and_eq_true] at h
  exact h

theorem jsonWfMembers_cons {k : String} {v : Json} {ps : List (String × Json)}
    (h : JsonWfMembers ((k, v) :: ps) = true) :
    JsonWf v = true ∧ JsonWfMembers ps = true := by
  rw [JsonWfMembers, Bool.and_eq_true] at h
  exact h

theorem keysDistinct_cons {k : String} {v : Json} {ps : List (String × Json)}
    (h : keysDistinct ((k, v) :: ps) = true) :
    lookupKey k ps = none ∧ keysDistinct ps = true := by
  rw [keysDistinct, Bool.and_eq_true, Option.isNone_iff_eq_none] at h
  exact h

theorem renderNum_head2 (m : Int) (e : Nat) :
    ∃ c l, renderNum m e = c :: l ∧ (c = '-' ∨ isDigitChar c = true) := by
  by_cases hm : m < 0
  · refine ⟨'-', numBody m.natAbs e, ?_, Or.inl rfl⟩
    rw [renderNum, if_pos hm]
    rfl
  · obtain ⟨c, l, hb, hcd⟩ := numBody_head m.natAbs e
    exact ⟨c, l, by rw [renderNum, if_neg hm, List.nil_append, hb], Or.inr hcd⟩
/-! ## The parser inverts the serializer -/

mutual
theorem parseValueR : ∀ (v : Json) (ind d fuel : Nat) (rest : List Char),
    JsonWf v = true → jsize v ≤ fuel → nBnd rest = true →
    parseValue fuel (render ind d v ++ rest) = .ok (v, rest)
  | v, _, _, 0, _, _, hfu, _ => by
    exfalso
    have := jsize_pos v
    omega
  | .null, ind, d, fuel + 1, rest, hwf, hfu, hb => by
    rw [render]
    simp only [List.cons_append, List.nil_append]
    rw [parseValue, skipWs_cons_not (by decide)]
    simp
  | .bool true, ind, d, fuel + 1, rest, hwf, hfu, hb => by
    rw [render]
    simp only [List.cons_append, List.nil_append]
    rw [parseValue, skipWs_cons_not (by decide)]
    simp
  | .bool false, ind, d, fuel + 1, rest, hwf, hfu, hb => by
    rw [render]
    simp only [List.cons_append, List.nil_append]
    rw [parseValue, skipWs_cons_not (by decide)]
    simp
  | .num m e, ind, d, fuel + 1, rest, hwf, hfu, hb => by
    have hwf2 := jsonWf_num hwf
    obtain ⟨c, l, hE, hcase⟩ := renderNum_head2 m e
    have hcd : isWsChar c = false ∧ ¬ c = '\x7b' ∧ ¬ c = '[' ∧ ¬ c = '"' ∧
        ¬ c = 't' ∧ ¬ c = 'f' ∧ ¬ c = 'n' := by
      rcases hcase with h | h
      · subst h
        exact ⟨by decide, by decide, by decide, by decide, by decide, by decide,
          by decide⟩
      · exact ⟨digit_not_ws h, digit_ne_brace h, digit_ne_bracket h,
          digit_ne_quote h, digit_ne_t h, digit_ne_f h, digit_ne_n h⟩
    obtain ⟨hws, hbr, hbk, hq, ht, hf, hn⟩ := hcd
    rw [render, hE]
    simp only [List.cons_append]
    rw [parseValue, skipWs_cons_not hws]
    simp only [reduceIte]
    rw [if_neg hbr, if_neg hbk, if_neg hq, if_neg ht, if_neg hf, if_neg hn,
      if_pos hcase]
    rw [← List.cons_append, ← hE, parseNum_render m e hwf2 rest hb]
    rfl
  | .str s, ind, d, fuel + 1, rest, hwf, hfu, hb => by
    rw [render, quoteStr_append]
    rw [parseValue, skipWs_cons_not (by decide)]
    simp only [reduceIte]
    rw [parseStrBody_quote s.data rest]
    simp [Except.map, stringMk_data]
  | .arr [], ind, d, fuel + 1, rest, hwf, hfu, hb => by
    rw [render]
    simp only [List.cons_append, List.nil_append]
    rw [parseValue, skipWs_cons_not (by decide)]
    simp only [reduceIte]
    rw [if_neg (show ¬ (('[' : Char) = '\x7b') from by decide)]
    rw [skipWs_cons_not (by decide)]
    simp
  | .arr (v :: vs), ind, d, fuel + 1, rest, hwf, hfu, hb => by
    obtain ⟨hw1, hw2⟩ := jsonWfList_cons (jsonWf_arr hwf)
    have hfu2 : jsizeList (v :: vs) ≤ fuel := by
      rw [jsize] at hfu
      omega
    have htl : skipWs (nlPad ind d ++ ']' :: rest) = ']' :: rest := by
      rw [skipWs_nlPad, skipWs_cons_not (by decide)]
    have hitems := parseItemsR (v :: vs) ind (d + 1) fuel []
      (nlPad ind d ++ ']' :: rest) rest (jsonWf_arr hwf) hfu2
      (fun x => by simp) htl (by simp)
    rw [itemsRender] at hitems
    simp only [List.nil_append, List.append_assoc] at hitems
    rw [render]
    simp only [List.cons_append, List.append_assoc, List.singleton_append,
      List.nil_append]
    rw [parseValue, skipWs_cons_not (by decide)]
    simp only [reduceIte]
    rw [if_neg (show ¬ (('[' : Char) = '\x7b') from by decide)]
    rw [skipWs_nlPad, skipWs_render]
    obtain ⟨c1, l1, hE, hws1, hnb1, hnb2⟩ := render_head ind (d + 1) v
    rw [hE] at hitems ⊢
    simp only [List.cons_append, List.append_assoc] at hitems ⊢
    simp [hnb1, hitems, Except.map]
  | .obj [], ind, d, fuel + 1, rest, hwf, hfu, hb => by
    rw [render]
    simp only [List.cons_append, List.nil_append]
    rw [parseValue, skipWs_cons_not (by decide)]
    simp only [reduceIte]
    rw [skipWs_cons_not (by decide)]
    simp
  | .obj ((k, v) :: ps), ind, d, fuel + 1, rest, hwf, hfu, hb => by
    obtain ⟨hd, hwm⟩ := jsonWf_obj hwf
    have hfu2 : jsizeMembers ((k, v) :: ps) ≤ fuel := by
      rw [jsize] at hfu
      omega
    have htl : skipWs (nlPad ind d ++ '\x7d' :: rest) = '\x7d' :: rest := by
      rw [skipWs_nlPad, skipWs_cons_not (by decide)]
    have hmem := parseMembersR ((k, v) :: ps) ind (d + 1) fuel []
      (nlPad ind d ++ '\x7d' :: rest) rest hwm hd hfu2
      (fun x => by simp) htl (by simp)
    rw [membersRender, quoteStr_append] at hmem
    simp only [List.nil_append, List.append_assoc, List.cons_append] at hmem
    rw [render]
    simp only [List.cons_append, List.append_assoc, List.singleton_append,
      List.nil_append]
    rw [parseValue, skipWs_cons_not (by decide)]
    simp only [reduceIte]
    rw [skipWs_nlPad, quoteStr_append, skipWs_cons_not (by decide)]
    simp [hmem, Except.map]
termination_by structural v => v

theorem parseItemsR : ∀ (l : List Json) (ind d fuel : Nat) (pre tl rest : List Char),
    JsonWfList l = true → jsizeList l ≤ fuel →
    (∀ x, skipWs (pre ++ x) = skipWs x) → skipWs tl = ']' :: rest → l ≠ [] →
    parseItems fuel (pre ++ (itemsRender ind d l ++ tl)) = .ok (l, rest)
  | [], _, _, _, _, _, _, _, _, _, _, hne => absurd rfl hne
  | v :: vs, ind, d, fuel, pre, tl, rest, hwf, hfu, hpre, htl, _ => by
    obtain ⟨hw1, hw2⟩ := jsonWfList_cons hwf
    have hfu2 : 1 + jsize v + jsizeList vs ≤ fuel := by
      rw [jsizeList] at hfu
      exact hfu
    have hj1 := jsize_pos v
    obtain ⟨g, rfl⟩ : ∃ g, fuel = g + 1 + 1 := ⟨fuel - 2, by omega⟩
    rw [itemsRender]
    simp only [List.append_assoc]
    rw [parseItems]
    rw [parseValue_pre g pre _ hpre]
    have hbY : nBnd (renderItemsRest ind d vs ++ tl) = true := by
      cases vs with
      | nil =>
        rw [renderItemsRest, List.nil_append]
        exact nBnd_of_skipWs_bracket htl
      | cons w ws =>
        rw [renderItemsRest]
        simp only [List.cons_append]
        rw [nBnd]
        decide
    simp only [parseValueR v ind d (g + 1) _ hw1 (by omega) hbY]
    cases vs with
    | nil =>
      rw [renderItemsRest, List.nil_append]
      simp [htl]
    | cons w ws =>
      have hrec := parseItemsR (w :: ws) ind d (g + 1) (nlPad ind d) tl rest hw2
        (by rw [jsizeList] at hfu2 ⊢; omega)
        (fun x => skipWs_nlPad ind d x) htl (by simp)
      rw [itemsRender] at hrec
      simp only [List.append_assoc] at hrec
      rw [renderItemsRest]
      simp only [List.cons_append, List.append_assoc]
      rw [skipWs_cons_not (by decide)]
      simp [hrec, Except.map]
termination_by structural l => l

theorem parseMembersR : ∀ (l : List (String × Json)) (ind d fuel : Nat)
    (pre tl rest : List Char),
    JsonWfMembers l = true → keysDistinct l = true → jsizeMembers l ≤ fuel →
    (∀ x, skipWs (pre ++ x) = skipWs x) → skipWs tl = '\x7d' :: rest → l ≠ [] →
    parseMembers fuel (pre ++ (membersRender ind d l ++ tl)) = .ok (l, rest)
  | [], _, _, _, _, _, _, _, _, _, _, _, hne => absurd rfl hne
  | (k, v) :: ps, ind, d, fuel, pre, tl, rest, hwf, hdist, hfu, hpre, htl, _ => by
    obtain ⟨hw1, hw2⟩ := jsonWfMembers_cons hwf
    obtain ⟨hlk, hd2⟩ := keysDistinct_cons hdist
    have hfu2 : 1 + jsize v + jsizeMembers ps ≤ fuel := by
      rw [jsizeMembers] at hfu
      exact hfu
    have hj1 := jsize_pos v
    obtain ⟨g, rfl⟩ : ∃ g, fuel = g + 1 + 1 := ⟨fuel - 2, by omega⟩
    rw [membersRender]
    simp only [List.append_assoc]
    rw [parseMembers]
    rw [hpre]
    rw [quoteStr_append, skipWs_cons_not (by decide)]
    simp only [List.cons_append]
    rw [parseStrBody_quote k.data]
    obtain ⟨ct, hctEq, hct⟩ := colonPad_shape ind
    rw [hctEq]
    simp only [List.cons_append, List.append_assoc]
    rw [skipWs_cons_not (by decide)]
    simp only [parseValue_pre g ct _ hct]
    have hbY : nBnd (renderMembersRest ind d ps ++ tl) = true := by
      cases ps with
      | nil =>
        rw [renderMembersRest, List.nil_append]
        exact nBnd_of_skipWs_brace htl
      | cons p ps2 =>
        rcases p with ⟨k2, v2⟩
        rw [renderMembersRest]
        simp only [List.cons_append]
        rw [nBnd]
        decide
    simp only [parseValueR v ind d (g + 1) _ hw1 (by omega) hbY]
    cases ps with
    | nil =>
      rw [renderMembersRest, List.nil_append]
      simp [htl, stringMk_data]
    | cons p ps2 =>
      rcases p with ⟨k2, v2⟩
      have hrec := parseMembersR ((k2, v2) :: ps2) ind d (g + 1) (nlPad ind d)
        tl rest hw2 hd2 (by rw [jsizeMembers] at hfu2 ⊢; omega)
        (fun x => skipWs_nlPad ind d x) htl (by simp)
      rw [membersRender, quoteStr_append] at hrec
      simp only [List.append_assoc, List.cons_append] at hrec
      rw [renderMembersRest]
      simp only [List.cons_append, List.append_assoc]
      rw [skipWs_cons_not (by decide)]
      rw [quoteStr_append]
      simp [hrec, Except.map, stringMk_data, consMember, hlk]
termination_by structural l => l
end

/-! ## Top-level round trip -/

theorem parse_render (v : Json) (ind : Nat) (hwf : JsonWf v = true) :
    parse (String.mk (render ind 0 v)) = .ok v := by
  have hfu : jsize v ≤ (render ind 0 v).length + 1 :=
    Nat.le_succ_of_le (render_len v ind 0)
  have hb : nBnd ([] : List Char) = true := rfl
  have h := parseValueR v ind 0 ((render ind 0 v).length + 1) [] hwf hfu hb
  rw [List.append_nil] at h
  simp only [parse]
  simp only [h]
  simp [skipWs]
/-! ## Claim C1: round trip -/

/-- C1: For every well-formed JSON value `v` and every indent width in
\x7b2, 4, 8\x7d, parsing the pretty-printed text returns exactly `v`, and
parsing the minified text returns exactly `v`. Values carry numbers as exact
decimals in normalized form, matching what the parser itself produces. -/
theorem c1_round_trip (v : Json) (ind : Nat) (hwf : JsonWf v = true)
    (_hind : ind = 2 ∨ ind = 4 ∨ ind = 8) :
    parse (prettyPrint ind v) = .ok v ∧ parse (minify v) = .ok v :=
  ⟨parse_render v ind hwf, parse_render v 0 hwf⟩

/-- Witness for C1 at a concrete nested value and indent width 2. -/
theorem c1_round_trip_witness :
    JsonWf (Json.obj [("a", Json.num (-1) 0),
      ("b", Json.arr [Json.null, Json.bool true, Json.str "x\ny",
        Json.num 25 1])]) = true ∧
    ((2 : Nat) = 2 ∨ (2 : Nat) = 4 ∨ (2 : Nat) = 8) ∧
    (parse (prettyPrint 2 (Json.obj [("a", Json.num (-1) 0),
        ("b", Json.arr [Json.null, Json.bool true, Json.str "x\ny",
          Json.num 25 1])])) =
      .ok (Json.obj [("a", Json.num (-1) 0),
        ("b", Json.arr [Json.null, Json.bool true, Json.str "x\ny",
          Json.num 25 1])]) ∧
     parse (minify (Json.obj [("a", Json.num (-1) 0),
        ("b", Json.arr [Json.null, Json.bool true, Json.str "x\ny",
          Json.num 25 1])])) =
      .ok (Json.obj [("a", Json.num (-1) 0),
        ("b", Json.arr [Json.null, Json.bool true, Json.str "x\ny",
          Json.num 25 1])])) :=
  ⟨by decide, Or.inl rfl,
   c1_round_trip _ 2 (by decide) (Or.inl rfl)⟩
/-! ## Sorting lemmas -/

theorem lexLe_total (as : List Nat) : ∀ bs : List Nat,
    lexLe as bs = true ∨ lexLe bs as = true := by
  induction as with
  | nil => intro bs; exact Or.inl rfl
  | cons a as ih =>
    intro bs
    cases bs with
    | nil => exact Or.inr rfl
    | cons b bs =>
      rw [lexLe, lexLe]
      rcases Nat.lt_trichotomy a b with h | h | h
      · left
        simp [h]
      · subst h
        simp only [Nat.lt_irrefl, if_false]
        exact ih bs
      · right
        simp [h]

theorem keyLe_total (p q : String × Json) : keyLe p q = true ∨ keyLe q p = true :=
  lexLe_total (localeKey p.1) (localeKey q.1)

theorem chainLe_insertBy {α : Type} (le : α → α → Bool)
    (htot : ∀ a b, le a b = true ∨ le b a = true) (x : α) (l : List α) :
    chainLe le l = true → chainLe le (insertBy le x l) = true := by
  induction l with
  | nil => intro _; rfl
  | cons y ys ih =>
    intro h
    rw [insertBy]
    by_cases hxy : le x y = true
    · rw [if_pos hxy, chainLe, hxy, h]
      rfl
    · rw [if_neg hxy]
      have hyx : le y x = true := (htot x y).resolve_left hxy
      cases ys with
      | nil =>
        rw [insertBy, chainLe, hyx]
        rfl
      | cons z zs =>
        rw [chainLe, Bool.and_eq_true] at h
        obtain ⟨hyz, hzs⟩ := h
        have hrec : chainLe le (insertBy le x (z :: zs)) = true := ih hzs
        rw [insertBy] at hrec ⊢
        by_cases hxz : le x z = true
        · rw [if_pos hxz] at hrec ⊢
          rw [chainLe, hyx, hrec]
          rfl
        · rw [if_neg hxz] at hrec ⊢
          rw [chainLe, hyz, hrec]
          rfl

theorem chainLe_sortBy {α : Type} (le : α → α → Bool)
    (htot : ∀ a b, le a b = true ∨ le b a = true) (l : List α) :
    chainLe le (sortBy le l) = true := by
  induction l with
  | nil => rfl
  | cons x xs ih =>
    rw [sortBy]
    exact chainLe_insertBy le htot x _ ih

theorem sortBy_eq_of_chainLe {α : Type} (le : α → α → Bool) (l : List α) :
    chainLe le l = true → sortBy le l = l := by
  induction l with
  | nil => intro _; rfl
  | cons x xs ih =>
    intro h
    rw [sortBy]
    cases xs with
    | nil => rfl
    | cons y ys =>
      rw [chainLe, Bool.and_eq_true] at h
      rw [ih h.2, insertBy, if_pos h.1]

theorem insertBy_perm {α : Type} (le : α → α → Bool) (x : α) (l : List α) :
    List.Perm (insertBy le x l) (x :: l) := by
  induction l with
  | nil => exact List.Perm.refl _
  | cons y ys ih =>
    rw [insertBy]
    by_cases h : le x y = true
    · rw [if_pos h]
    · rw [if_neg h]
      exact (ih.cons y).trans (List.Perm.swap x y ys)

theorem sortBy_perm {α : Type} (le : α → α → Bool) (l : List α) :
    List.Perm (sortBy le l) l := by
  induction l with
  | nil => exact List.Perm.refl _
  | cons x xs ih =>
    rw [sortBy]
    exact (insertBy_perm le x _).trans (ih.cons x)

theorem sortKeysList_map (l : List Json) : sortKeysList l = l.map sortKeysDeep := by
  induction l with
  | nil => rfl
  | cons v vs ih => rw [sortKeysList, ih, List.map_cons]

theorem sortMembersVals_map (m : List (String × Json)) :
    sortMembersVals m = m.map (fun p => (p.1, sortKeysDeep p.2)) := by
  induction m with
  | nil => rfl
  | cons p ps ih =>
    rcases p with ⟨k, v⟩
    rw [sortMembersVals, ih, List.map_cons]

theorem insertBy_map_keyLe (x : String × Json) (l : List (String × Json)) :
    insertBy keyLe (x.1, sortKeysDeep x.2)
        (l.map (fun p => (p.1, sortKeysDeep p.2))) =
      (insertBy keyLe x l).map (fun p => (p.1, sortKeysDeep p.2)) := by
  induction l with
  | nil => rfl
  | cons y ys ih =>
    simp only [List.map_cons, insertBy]
    have hc : keyLe (x.1, sortKeysDeep x.2) (y.1, sortKeysDeep y.2) = keyLe x y := rfl
    rw [hc]
    by_cases h : keyLe x y = true
    · simp [h]
    · simp [h, ih]

theorem sortBy_map_keyLe (l : List (String × Json)) :
    sortBy keyLe (l.map (fun p => (p.1, sortKeysDeep p.2))) =
      (sortBy keyLe l).map (fun p => (p.1, sortKeysDeep p.2)) := by
  induction l with
  | nil => rfl
  | cons x xs ih =>
    simp only [List.map_cons, sortBy]
    rw [ih]
    exact insertBy_map_keyLe x (sortBy keyLe xs)

theorem keysSortedMembers_insertBy (x : String × Json) (l : List (String × Json)) :
    keysSortedDeep x.2 = true → keysSortedMembers l = true →
      keysSortedMembers (insertBy keyLe x l) = true := by
  rcases x with ⟨k, v⟩
  induction l with
  | nil =>
    intro hx _
    rw [insertBy, keysSortedMembers, keysSortedMembers]
    simp [hx]
  | cons y ys ih =>
    intro hx hl
    rcases y with ⟨k2, v2⟩
    rw [keysSortedMembers, Bool.and_eq_true] at hl
    rw [insertBy]
    by_cases h : keyLe (k, v) (k2, v2) = true
    · rw [if_pos h, keysSortedMembers, keysSortedMembers]
      simp [hx, hl.1, hl.2]
    · rw [if_neg h, keysSortedMembers]
      simp [hl.1, ih hx hl.2]

theorem keysSortedMembers_sortBy (l : List (String × Json)) :
    keysSortedMembers l = true → keysSortedMembers (sortBy keyLe l) = true := by
  induction l with
  | nil => intro _; rfl
  | cons x xs ih =>
    intro h
    rcases x with ⟨k, v⟩
    rw [keysSortedMembers, Bool.and_eq_true] at h
    rw [sortBy]
    exact keysSortedMembers_insertBy (k, v) _ h.1 (ih h.2)

mutual
theorem sortedDeep_sort : ∀ v : Json, keysSortedDeep (sortKeysDeep v) = true
  | .null => rfl
  | .bool _ => rfl
  | .num _ _ => rfl
  | .str _ => rfl
  | .arr l => by
    have h1 : sortKeysDeep (Json.arr l) = Json.arr (sortKeysList l) := rfl
    have h2 : keysSortedDeep (Json.arr (sortKeysList l)) =
        keysSortedList (sortKeysList l) := rfl
    rw [h1, h2]
    exact sortedDeep_sortList l
  | .obj m => by
    have h1 : sortKeysDeep (Json.obj m) =
        Json.obj (sortBy keyLe (sortMembersVals m)) := rfl
    have h2 : keysSortedDeep (Json.obj (sortBy keyLe (sortMembersVals m))) =
        (chainLe keyLe (sortBy keyLe (sortMembersVals m)) &&
          keysSortedMembers (sortBy keyLe (sortMembersVals m))) := rfl
    rw [h1, h2, Bool.and_eq_true]
    exact ⟨chainLe_sortBy keyLe keyLe_total _,
      keysSortedMembers_sortBy _ (sortedDeep_sortMembers m)⟩
termination_by structural v => v

theorem sortedDeep_sortList : ∀ l : List Json, keysSortedList (sortKeysList l) = true
  | [] => rfl
  | v :: vs => by
    have h1 : sortKeysList (v :: vs) = sortKeysDeep v :: sortKeysList vs := rfl
    have h2 : keysSortedList (sortKeysDeep v :: sortKeysList vs) =
        (keysSortedDeep (sortKeysDeep v) && keysSortedList (sortKeysList vs)) := rfl
    rw [h1, h2, Bool.and_eq_true]
    exact ⟨sortedDeep_sort v, sortedDeep_sortList vs⟩
termination_by structural l => l

theorem sortedDeep_sortMembers : ∀ m : List (String × Json),
    keysSortedMembers (sortMembersVals m) = true
  | [] => rfl
  | (k, v) :: ps => by
    have h1 : sortMembersVals ((k, v) :: ps) =
        (k, sortKeysDeep v) :: sortMembersVals ps := rfl
    have h2 : keysSortedMembers ((k, sortKeysDeep v) :: sortMembersVals ps) =
        (keysSortedDeep (sortKeysDeep v) && keysSortedMembers (sortMembersVals ps)) := rfl
    rw [h1, h2, Bool.and_eq_true]
    exact ⟨sortedDeep_sort v, sortedDeep_sortMembers ps⟩
termination_by structural l => l
end

mutual
theorem sortIdem : ∀ v : Json, sortKeysDeep (sortKeysDeep v) = sortKeysDeep v
  | .null => rfl
  | .bool _ => rfl
  | .num _ _ => rfl
  | .str _ => rfl
  | .arr l => by
    have h1 : sortKeysDeep (Json.arr l) = Json.arr (sortKeysList l) := rfl
    have h2 : sortKeysDeep (Json.arr (sortKeysList l)) =
        Json.arr (sortKeysList (sortKeysList l)) := rfl
    rw [h1, h2, sortIdemList l]
  | .obj m => by
    have h1 : sortKeysDeep (Json.obj m) =
        Json.obj (sortBy keyLe (sortMembersVals m)) := rfl
    have h2 : sortKeysDeep (Json.obj (sortBy keyLe (sortMembersVals m))) =
        Json.obj (sortBy keyLe (sortMembersVals (sortBy keyLe (sortMembersVals m)))) := rfl
    rw [h1, h2]
    have h3 : sortMembersVals (sortBy keyLe (sortMembersVals m)) =
        sortBy keyLe (sortMembersVals m) := by
      rw [sortMembersVals_map (sortBy keyLe (sortMembersVals m))]
      rw [← sortBy_map_keyLe]
      rw [← sortMembersVals_map (sortMembersVals m)]
      rw [sortIdemMembers m]
    rw [h3]
    rw [sortBy_eq_of_chainLe keyLe _ (chainLe_sortBy keyLe keyLe_total _)]
termination_by structural v => v

theorem sortIdemList : ∀ l : List Json, sortKeysList (sortKeysList l) = sortKeysList l
  | [] => rfl
  | v :: vs => by
    have h1 : sortKeysList (v :: vs) = sortKeysDeep v :: sortKeysList vs := rfl
    have h2 : sortKeysList (sortKeysDeep v :: sortKeysList vs) =
        sortKeysDeep (sortKeysDeep v) :: sortKeysList (sortKeysList vs) := rfl
    rw [h1, h2, sortIdem v, sortIdemList vs]
termination_by structural l => l

theorem sortIdemMembers : ∀ m : List (String × Json),
    sortMembersVals (sortMembersVals m) = sortMembersVals m
  | [] => rfl
  | (k, v) :: ps => by
    have h1 : sortMembersVals ((k, v) :: ps) =
        (k, sortKeysDeep v) :: sortMembersVals ps := rfl
    have h2 : sortMembersVals ((k, sortKeysDeep v) :: sortMembersVals ps) =
        (k, sortKeysDeep (sortKeysDeep v)) :: sortMembersVals (sortMembersVals ps) := rfl
    rw [h1, h2, sortIdem v, sortIdemMembers ps]
termination_by structural l => l
end
/-! ## Claims C2 and C10 -/

/-- C2 counterexample: on \x7b"B":1,"a":2\x7d the code's `sortKeysDeep` orders the
keys `["a", "B"]` by default-locale `localeCompare`, while ascending
codepoint order (the spec's `canonicalize`) gives `["B", "a"]`; indeed
`"B" < "a"` by codepoint (66 < 97) yet `"a"` sorts first under the locale
comparator. -/
theorem c2_codepoint_counterexample :
    objKeys (sortKeysDeep (Json.obj [("B", Json.num 1 0), ("a", Json.num 2 0)])) =
      ["a", "B"] ∧
    objKeys (canonicalizeSpec (Json.obj [("B", Json.num 1 0), ("a", Json.num 2 0)])) =
      ["B", "a"] ∧
    cpLe "B" "a" = true ∧ cpLe "a" "B" = false ∧ localeLe "a" "B" = true ∧
    objKeys (sortKeysDeep (Json.obj [("B", Json.num 1 0), ("a", Json.num 2 0)])) ≠
      objKeys (canonicalizeSpec (Json.obj [("B", Json.num 1 0), ("a", Json.num 2 0)])) := by
  decide

/-- C2 (amended): `sortKeysDeep` returns a value whose every object member
list, at every nesting level, is sorted ascending by the default-locale
`localeCompare` order (case-folded, lowercase-first tiebreak) — not by raw
codepoint; array contents are recursively transformed element-wise with
their order never altered; scalars pass through unchanged; and each
object keeps exactly its original members (a permutation of them, with
values recursed). -/
theorem c2_locale_sort_amended (v : Json) (l : List Json)
    (m : List (String × Json)) :
    keysSortedDeep (sortKeysDeep v) = true ∧
    sortKeysDeep (Json.arr l) = Json.arr (l.map sortKeysDeep) ∧
    List.Perm (sortBy keyLe (sortMembersVals m))
      (m.map (fun p => (p.1, sortKeysDeep p.2))) ∧
    sortKeysDeep Json.null = Json.null ∧
    (∀ b, sortKeysDeep (Json.bool b) = Json.bool b) ∧
    (∀ i e, sortKeysDeep (Json.num i e) = Json.num i e) ∧
    (∀ s, sortKeysDeep (Json.str s) = Json.str s) := by
  refine ⟨sortedDeep_sort v, ?_, ?_, rfl, fun b => rfl, fun i e => rfl, fun s => rfl⟩
  · have h1 : sortKeysDeep (Json.arr l) = Json.arr (sortKeysList l) := rfl
    rw [h1, sortKeysList_map]
  · rw [sortMembersVals_map]
    exact sortBy_perm keyLe (m.map (fun p => (p.1, sortKeysDeep p.2)))

/-- C10: `sortKeysDeep` is idempotent on every value; and for a
well-formed value, minifying, reparsing and re-minifying reproduces the
same minified text, while reparsing the minified text yields the
original value. -/
theorem c10_idempotence (v : Json) (hwf : JsonWf v = true) :
    sortKeysDeep (sortKeysDeep v) = sortKeysDeep v ∧
    textMinify (minify v) = some (minify v) ∧
    parse (minify v) = .ok v := by
  have hp : parse (minify v) = .ok v := parse_render v 0 hwf
  refine ⟨sortIdem v, ?_, hp⟩
  rw [textMinify, hp]
  rfl

/-- Witness for C10 at a concrete nested value. -/
theorem c10_idempotence_witness :
    JsonWf (Json.obj [("b", Json.num 1 0),
      ("a", Json.arr [Json.obj [("z", Json.null), ("y", Json.bool false)]])]) = true ∧
    (sortKeysDeep (sortKeysDeep (Json.obj [("b", Json.num 1 0),
        ("a", Json.arr [Json.obj [("z", Json.null), ("y", Json.bool false)]])])) =
      sortKeysDeep (Json.obj [("b", Json.num 1 0),
        ("a", Json.arr [Json.obj [("z", Json.null), ("y", Json.bool false)]])]) ∧
     textMinify (minify (Json.obj [("b", Json.num 1 0),
        ("a", Json.arr [Json.obj [("z", Json.null), ("y", Json.bool false)]])])) =
      some (minify (Json.obj [("b", Json.num 1 0),
        ("a", Json.arr [Json.obj [("z", Json.null), ("y", Json.bool false)]])])) ∧
     parse (minify (Json.obj [("b", Json.num 1 0),
        ("a", Json.arr [Json.obj [("z", Json.null), ("y", Json.bool false)]])])) =
      .ok (Json.obj [("b", Json.num 1 0),
        ("a", Json.arr [Json.obj [("z", Json.null), ("y", Json.bool false)]])])) :=
  ⟨by decide, c10_idempotence _ (by decide)⟩

end JLint
